import Mathlib

/-!
# directoy-walk: the traversal / filter / action pipeline of `main.go`

A shallow embedding of `run` (main.go, lines 72-100) and of the callback it
hands to `filepath.Walk`.

* `filterOut`, `listFile`, `archiveFile` and `delFile` are called by `run` but
  their bodies live in a file of the repository that is not part of the
  sources at hand.  `run` is therefore embedded over an arbitrary set of
  handlers (`Handlers`), and the statements about the dispatch order hold for
  every implementation of them.  Section "Handlers, from the specification"
  gives one implementation that follows the words of the specification; it is
  used where a statement is about what a handler itself does.
* `filepath.Walk` is the Go standard library.  `Walk` embeds it by what the
  callback observes of it: the entries `(path, info, err)` it is called with,
  in order, and the rule that the first non-nil result ends the walk and is
  the result.  `WalkFS` embeds the library function itself over the file
  system of the model (a directory is read when the walk enters it), and
  `WalkFS_is_Walk` shows that such a walk is `Walk` over the entries it
  presents.  The sentinels `filepath.SkipDir` / `SkipAll` are not
  represented: errors are the ordinary errors of the operating system.
* Writers (`io.Writer`) are identities; the state holds what has been written
  to each.  `out` and `cfg.wLog` may be one and the same writer, as they are
  in `main` when no log file is given (main.go, lines 42, 63, 66).
* Files are found by the place a path names (its segments from the root of
  the file system, `.`, `..`, doubled and trailing slashes resolved, a
  relative path taken from the working directory), not by its spelling.
  Hard and symbolic links are not represented.
-/

namespace DirWalk

/-! ## Data -/

/-- A Go `error` value: what `Error()` prints. `Option Error` is Go's `error`,
with `none` for `nil`. -/
structure Error where
  msg : String
deriving DecidableEq

/-- The part of `os.FileInfo` the program reads: `Name()`, `Size()` (an
`int64`, never near its bounds here: it is only compared) and `IsDir()`. -/
structure FileInfo where
  name : String
  size : Int
  isDir : Bool
deriving DecidableEq

/-- An `io.Writer`, by identity: two writers are the same sink exactly when
they are equal. -/
structure Writer where
  id : Nat
deriving DecidableEq

/-- The `config` struct of main.go (lines 13-26). -/
structure config where
  ext : String
  size : Int
  list : Bool
  del : Bool
  wLog : Writer
  archive : String
deriving DecidableEq

/-- A `*log.Logger` as `log.New` builds it: the writer it writes to, the text
put in front of every record and the flag bits. -/
structure Logger where
  out : Writer
  pfx : String
  flag : Nat
deriving DecidableEq

/-- `log.LstdFlags`, that is `Ldate | Ltime`. -/
def LstdFlags : Nat := 3

/-- `log.New(out, prefix, flag)`. -/
def logNew (out : Writer) (pfx : String) (flag : Nat) : Logger := ⟨out, pfx, flag⟩

/-- One step of a traversal as the callback sees it: the three arguments
`filepath.Walk` passes. When `err` is `some _` the callback does not look at
`info`. -/
structure Entry where
  path : String
  info : FileInfo
  err : Option Error
deriving DecidableEq

/-- A call made by the callback, as recorded in the trace of a run. -/
inductive Call where
  | filterOut (path ext : String) (minSize : Int) (info : FileInfo)
  | listFile (path : String) (out : Writer)
  | archiveFile (destDir root path : String)
  | delFile (path : String) (delLogger : Logger)
deriving DecidableEq

/-- The four functions `run` calls and main.go does not define, over a state
`σ` that holds whatever they act on (the writers and the file system). -/
structure Handlers (σ : Type) where
  filterOut : String → String → Int → FileInfo → Bool
  listFile : String → Writer → σ → Option Error × σ
  archiveFile : String → String → String → σ → Option Error × σ
  delFile : String → Logger → σ → Option Error × σ

/-- The state of a run: the calls made so far, oldest first (bookkeeping of
the embedding, the program keeps no such list), and the state the handlers
act on. -/
structure St (σ : Type) where
  calls : List Call
  world : σ

/-- Record the call `c` and let the handler `h` act. -/
def invoke {σ : Type} (c : Call) (h : σ → Option Error × σ) (s : St σ) :
    Option Error × St σ :=
  ((h s.world).1, ⟨s.calls ++ [c], (h s.world).2⟩)

/-! ## `run` (main.go, lines 72-100) -/

/-- The function literal passed to `filepath.Walk` (main.go, lines 74-99). -/
def walkFn {σ : Type} (H : Handlers σ) (root : String) (out : Writer) (cfg : config)
    (delLogger : Logger) (path : String) (info : FileInfo) (err : Option Error) (s : St σ) :
    Option Error × St σ :=
  match err with
  | some e => (some e, s)
  | none =>
    let s0 : St σ := ⟨s.calls ++ [Call.filterOut path cfg.ext cfg.size info], s.world⟩
    if H.filterOut path cfg.ext cfg.size info then (none, s0)
    else if cfg.list then invoke (Call.listFile path out) (H.listFile path out) s0
    else
      let r : Option Error × St σ :=
        if cfg.archive ≠ "" then
          invoke (Call.archiveFile cfg.archive root path)
            (H.archiveFile cfg.archive root path) s0
        else (none, s0)
      match r.1 with
      | some e => (some e, r.2)
      | none =>
        if cfg.del then invoke (Call.delFile path delLogger) (H.delFile path delLogger) r.2
        else invoke (Call.listFile path out) (H.listFile path out) r.2

/-- The contract of `filepath.Walk` towards its callback: `fn` is called on
the entries of the traversal in order; the first non-nil result stops the walk
and is returned; otherwise the result is nil. -/
def Walk {τ : Type} (fn : String → FileInfo → Option Error → τ → Option Error × τ) :
    List Entry → τ → Option Error × τ
  | [], s => (none, s)
  | e :: es, s =>
    match fn e.path e.info e.err s with
    | (some err, s1) => (some err, s1)
    | (none, s1) => Walk fn es s1

/-- The logger `run` builds (main.go, line 73). -/
def delLoggerOf (cfg : config) : Logger := logNew cfg.wLog "DELETED FILE: " LstdFlags

/-- The function `run(root, out, cfg)`: `tr` is the traversal `filepath.Walk`
makes of `root`, `s` the state in which the run starts. -/
def run {σ : Type} (H : Handlers σ) (root : String) (out : Writer) (cfg : config)
    (tr : List Entry) (s : St σ) : Option Error × St σ :=
  let delLogger := logNew cfg.wLog "DELETED FILE: " LstdFlags
  Walk (walkFn H root out cfg delLogger) tr s

/-- The entries of a traversal the callback hands to an action: no traversal
error, and not excluded by the filter. -/
def passing {σ : Type} (H : Handlers σ) (cfg : config) (tr : List Entry) : List Entry :=
  tr.filter (fun e => e.err.isNone && !H.filterOut e.path cfg.ext cfg.size e.info)

/-- Whether a recorded call is a call of `listFile`. -/
def Call.isList : Call → Bool
  | Call.listFile _ _ => true
  | _ => false

/-- Whether a recorded call is a call of `archiveFile`. -/
def Call.isArchive : Call → Bool
  | Call.archiveFile _ _ _ => true
  | _ => false

/-- Whether a recorded call is a call of `delFile`. -/
def Call.isDel : Call → Bool
  | Call.delFile _ _ => true
  | _ => false

/-- Whether a recorded call is an evaluation of the filter. -/
def Call.isFilter : Call → Bool
  | Call.filterOut _ _ _ _ => true
  | _ => false

/-- The path a recorded call is about. -/
def Call.path : Call → String
  | Call.filterOut p _ _ _ => p
  | Call.listFile p _ => p
  | Call.archiveFile _ _ p => p
  | Call.delFile p _ => p

/-- The configuration with the same filter settings and audit writer, and
`list` as its only action. -/
def listOnly (cfg : config) : config :=
  { ext := cfg.ext, size := cfg.size, list := true, del := false, wLog := cfg.wLog,
    archive := "" }

/-! ## Paths -/

/-- The place of a file or directory: the names from the root of the file
system down to it. -/
abbrev Key := List String

/-- The pieces of a path between its slashes; `cur` is the piece being read,
last character first. -/
def segsAux : List Char → List Char → List String
  | [], cur => [String.mk cur.reverse]
  | c :: cs, cur =>
    if c = '/' then String.mk cur.reverse :: segsAux cs [] else segsAux cs (c :: cur)

/-- The pieces of a path between its slashes. -/
def segments (p : String) : List String := segsAux p.data []

/-- Whether a path starts at the root of the file system. -/
def isAbs (p : String) : Bool := p.data.head? = some '/'

/-- One piece of a path read after others: `ups` counts the `..` that lead
out of the starting point, `stack` holds the names kept so far, last first.
Empty pieces and `.` are dropped, `..` removes the last name; above the root
of the file system `..` stays at the root. -/
def cleanStep (abs : Bool) (acc : Nat × List String) (seg : String) : Nat × List String :=
  if seg = "" ∨ seg = "." then acc
  else if seg = ".." then
    match acc.2 with
    | _ :: rest => (acc.1, rest)
    | [] => if abs then (acc.1, []) else (acc.1 + 1, [])
  else (acc.1, seg :: acc.2)

/-- A path after lexical cleaning: rooted or not, how many `..` lead out of
the starting point, and the names that follow. -/
structure Cleaned where
  abs : Bool
  ups : Nat
  segs : List String
deriving DecidableEq

/-- Lexical cleaning of a path, as `filepath.Clean` does it. -/
def clean (p : String) : Cleaned :=
  let r := (segments p).foldl (cleanStep (isAbs p)) (0, [])
  ⟨isAbs p, r.1, r.2.reverse⟩

/-- Names joined by slashes. -/
def joinSegs : List String → String
  | [] => ""
  | [a] => a
  | a :: b :: rest => a ++ "/" ++ joinSegs (b :: rest)

/-- The spelling of a cleaned path. -/
def render (c : Cleaned) : String :=
  if c.abs then "/" ++ joinSegs c.segs
  else if c.ups = 0 ∧ c.segs = [] then "."
  else joinSegs (List.replicate c.ups ".." ++ c.segs)

/-- The function `filepath.Clean`. -/
def Clean (p : String) : String := render (clean p)

/-- The function `filepath.Join` of two elements: empty elements are left
out, the rest is joined by a slash and cleaned. -/
def Join (a b : String) : String :=
  if a = "" then (if b = "" then "" else Clean b)
  else if b = "" then Clean a
  else Clean (a ++ "/" ++ b)

/-- The place a path names when the working directory is `cwd`. -/
def key (cwd : Key) (p : String) : Key :=
  if (clean p).abs then (clean p).segs
  else cwd.take (cwd.length - (clean p).ups) ++ (clean p).segs

/-- What is left of `k` after the leading names `pre`, when `k` starts with
them. -/
def stripPre : Key → Key → Option Key
  | [], k => some k
  | _ :: _, [] => none
  | a :: pre, b :: k => if a = b then stripPre pre k else none

/-! ## The file system -/

/-- What a place of the file system holds: a regular file with its contents,
or a directory. -/
inductive Node where
  | file (data : String)
  | dir
deriving DecidableEq

/-- A file system: the places that hold something, each once. The root of the
file system (the empty key) is a directory without being listed. -/
abbrev FS := List (Key × Node)

/-- What the file system holds at `q`, if anything. -/
def getNode : FS → Key → Option Node
  | [], _ => none
  | (k, n) :: rest, q => if q = k then some n else getNode rest q

/-- The file system without the place `k`. -/
def delNode (fs : FS) (k : Key) : FS := fs.filter (fun x => decide (x.1 ≠ k))

/-- The file system with `n` at the place `k`. -/
def setNode (fs : FS) (k : Key) (n : Node) : FS := (k, n) :: delNode fs k

/-- Whether text `a` comes strictly before text `b` in the order of
`sort.Strings` (character by character, a proper beginning first). -/
def ltChars : List Char → List Char → Bool
  | _, [] => false
  | [], _ :: _ => true
  | a :: as, b :: bs => if a.toNat < b.toNat then true else if a = b then ltChars as bs else false

/-- A name put at its place in a sorted list of names, unless it is there. -/
def insertName (n : String) : List String → List String
  | [] => [n]
  | m :: ms =>
    if n = m then m :: ms
    else if ltChars n.data m.data then n :: m :: ms
    else m :: insertName n ms

/-- The name of `k` inside the directory `d`, when `k` lies directly in it. -/
def childName (d k : Key) : Option String :=
  match stripPre d k with
  | some [n] => some n
  | _ => none

/-- The names in the directory `d`, sorted. -/
def dirNames (fs : FS) (d : Key) : List String :=
  (fs.filterMap (fun x => childName d x.1)).foldr insertName []

/-- The directories `pre/n1`, `pre/n1/n2`, ... made where nothing is; `none`
when one of these places holds a regular file. -/
def mkdirsFrom (fs : FS) (pre : Key) : List String → Option FS
  | [] => some fs
  | n :: rest =>
    match getNode fs (pre ++ [n]) with
    | some (Node.file _) => none
    | some Node.dir => mkdirsFrom fs (pre ++ [n]) rest
    | none => mkdirsFrom (setNode fs (pre ++ [n]) Node.dir) (pre ++ [n]) rest

/-- The function `os.MkdirAll` on the file system: the directory `k` and the
directories above it. -/
def mkdirAll (fs : FS) (k : Key) : Option FS := mkdirsFrom fs [] k

/-! ## Handlers, from the specification -/

/-- A request to the operating system that can be refused for a reason the
state does not hold (permissions, a full disk, ...). A write is named by its
writer and the number of writes the writer has taken. -/
inductive SysCall where
  | write (w : Writer) (count : Nat)
  | remove (k : Key)
  | mkdirAll (k : Key)
  | openFile (k : Key)
  | create (k : Key)
  | copy (src dst : Key)
  | lstat (k : Key)
  | readDir (k : Key)
deriving DecidableEq

/-- What the handlers act on: what has been written to each writer (one
element per write, oldest first), the file system, the clock (the text of the
time stamp at the n-th reading, and how many readings there have been) and
the refusals of the operating system. The working directory of the process,
which the program never changes, is a parameter `cwd` of what resolves a
path. -/
structure World where
  sink : Writer → List String
  fs : FS
  clock : Nat → String
  time : Nat
  fault : SysCall → Option Error

/-- The writers after one more write of `chunk` to `w`. -/
def writeTo (sink : Writer → List String) (w : Writer) (chunk : String) :
    Writer → List String :=
  fun x => if x = w then sink x ++ [chunk] else sink x

/-- The text a writer holds: its writes one after the other. -/
def text : List String → String
  | [] => ""
  | a :: rest => a ++ text rest

/-- Scan of a path from its end, as `filepath.Ext` does: `acc` is the text
already passed. -/
def extRev : List Char → List Char → List Char
  | [], _ => []
  | c :: cs, acc =>
    if c = '/' then [] else if c = '.' then '.' :: acc else extRev cs (c :: acc)

/-- Modelled from the spec: the extension of a path, "derived from the path's
final segment", "the conventional last "." plus suffix" (the `filepath.Ext`
of Go); empty when the final segment has no dot. -/
def Ext (path : String) : String := ⟨extRev path.data.reverse []⟩

/-- Modelled from the spec: `filterOut` is not in the sources. Section 4.1:
exclude a directory (first, before extension and size are looked at); exclude
when the extension filter is non-empty and differs from the extension;
exclude when the minimum size is positive and the file is strictly smaller;
include otherwise. -/
def filterOut (path ext : String) (minSize : Int) (info : FileInfo) : Bool :=
  if info.isDir then true
  else if ext ≠ "" ∧ Ext path ≠ ext then true
  else if minSize > 0 ∧ info.size < minSize then true
  else false

/-- Modelled from the spec: `listFile` is not in the sources. Section 4.2:
"writes the path followed by a newline to the sink. No filesystem mutation.
Fails only if the sink write fails". -/
def listFile (path : String) (out : Writer) (w : World) : Option Error × World :=
  match w.fault (SysCall.write out (w.sink out).length) with
  | some e => (some e, w)
  | none => (none, { w with sink := writeTo w.sink out (path ++ "\n") })

/-- Modelled from the spec: `delFile` is not in the sources. Section 4.3:
"removes the file at that path from the filesystem, then writes one audit
record to the sink containing a fixed prefix, a timestamp, and the path";
an empty path, a missing file, a directory that is not empty or a refusal is
an error, and then no record is written. The specification names no failure
of the audit write: the record is written. Section 6: a record is the line
`<fixed-prefix><timestamp> <path>`. -/
def delFile (cwd : Key) (path : String) (delLogger : Logger) (w : World) : Option Error × World :=
  if path = "" then (some ⟨"remove : no such file or directory"⟩, w)
  else
    match getNode w.fs (key cwd path) with
    | none => (some ⟨"remove " ++ path ++ ": no such file or directory"⟩, w)
    | some n =>
      if n = Node.dir ∧ dirNames w.fs (key cwd path) ≠ [] then
        (some ⟨"remove " ++ path ++ ": directory not empty"⟩, w)
      else
        match w.fault (SysCall.remove (key cwd path)) with
        | some e => (some e, w)
        | none =>
          (none, { w with
            fs := delNode w.fs (key cwd path)
            sink := writeTo w.sink delLogger.out
              (delLogger.pfx ++ w.clock w.time ++ " " ++ path ++ "\n")
            time := w.time + 1 })

/-- Modelled from the spec: the path of `path` relative to `root` ("computes
the file's path relative to the traversal root"), as the names that lead from
the place of `root` to the place of `path`; `none` when `path` is not under
`root`. -/
def relSegs (cwd : Key) (root path : String) : Option Key :=
  stripPre (key cwd root) (key cwd path)

/-- Modelled from the spec: the place of the copy of `path`, "the mirrored
relative path under the archive destination": the relative path joined "onto
the archive-destination root (preserving subdirectory structure)". -/
def mirror (cwd : Key) (destDir root path : String) : Option Key :=
  (relSegs cwd root path).map (fun rel => key cwd destDir ++ rel)

/-- Whether the place `k` is a directory. -/
def isDirAt (fs : FS) (k : Key) : Bool :=
  decide (k = []) || decide (getNode fs k = some Node.dir)

/-- Modelled from the spec: `archiveFile` is not in the sources. Section 4.4:
relative path (failure: path not under root), intermediate directories under
the destination (failure), opening the source (failure), creating or
truncating the destination file (failure), copying the full contents
(failure: "the destination file may be left truncated/incomplete"). -/
def archiveFile (cwd : Key) (destDir root path : String) (w : World) : Option Error × World :=
  match (if path = "" then none else mirror cwd destDir root path) with
  | none => (some ⟨"Rel: can't make " ++ path ++ " relative to " ++ root⟩, w)
  | some target =>
    match w.fault (SysCall.mkdirAll target.dropLast) with
    | some e => (some e, w)
    | none =>
      match mkdirAll w.fs target.dropLast with
      | none => (some ⟨"mkdir " ++ destDir ++ ": not a directory"⟩, w)
      | some fs1 =>
        match getNode fs1 (key cwd path) with
        | none => (some ⟨"open " ++ path ++ ": no such file or directory"⟩, { w with fs := fs1 })
        | some _ =>
          match w.fault (SysCall.openFile (key cwd path)) with
          | some e => (some e, { w with fs := fs1 })
          | none =>
            if isDirAt fs1 target then
              (some ⟨"open " ++ destDir ++ ": is a directory"⟩, { w with fs := fs1 })
            else
              match w.fault (SysCall.create target) with
              | some e => (some e, { w with fs := fs1 })
              | none =>
                match w.fault (SysCall.copy (key cwd path) target) with
                | some e => (some e, { w with fs := setNode fs1 target (Node.file "") })
                | none =>
                  match getNode (setNode fs1 target (Node.file "")) (key cwd path) with
                  | some (Node.file data) =>
                    (none, { w with
                      fs := setNode (setNode fs1 target (Node.file "")) target (Node.file data) })
                  | _ =>
                    (some ⟨"read " ++ path ++ ": is a directory"⟩,
                      { w with fs := setNode fs1 target (Node.file "") })

/-- The handlers of the specification, for a process with working directory
`cwd`, as one implementation of `Handlers`. -/
def specHandlers (cwd : Key) : Handlers World :=
  { filterOut := filterOut, listFile := listFile,
    archiveFile := archiveFile cwd, delFile := delFile cwd }

/-- The text a listing of the entries `es` puts on the primary output: each
path followed by a newline, in order. -/
def listing : List Entry → String
  | [] => ""
  | e :: es => e.path ++ "\n" ++ listing es

/-- The audit records of the deletion of the entries `es`, in order, when the
clock has been read `n` times before: prefix, time stamp, a blank, the path,
a newline. -/
def auditRecords (lg : Logger) (clock : Nat → String) (n : Nat) : List Entry → List String
  | [] => []
  | e :: es => (lg.pfx ++ clock n ++ " " ++ e.path ++ "\n") :: auditRecords lg clock (n + 1) es

/-! ## `filepath.Walk` over the file system -/

/-- The `info` argument of a callback that gets an error and no `FileInfo`. -/
def noInfo : FileInfo := ⟨"", 0, false⟩

/-- The name `os.Lstat` reports for a path: what follows its last slash,
slashes at its end left aside; `/` for the root of the file system. -/
def baseName (p : String) : String :=
  match ((segments p).reverse.dropWhile (fun n => decide (n = ""))).head? with
  | some n => n
  | none => "/"

/-- The function `os.Lstat` on the file system of the model. The size given
for a directory is a placeholder: the program does not look at it. -/
def lstat (cwd : Key) (w : World) (path : String) : Except Error FileInfo :=
  match (if path = "" then some ⟨"lstat : no such file or directory"⟩
    else w.fault (SysCall.lstat (key cwd path))) with
  | some e => Except.error e
  | none =>
    match getNode w.fs (key cwd path) with
    | some (Node.file data) => Except.ok ⟨baseName path, data.length, false⟩
    | some Node.dir => Except.ok ⟨baseName path, 4096, true⟩
    | none =>
      if key cwd path = [] then Except.ok ⟨baseName path, 4096, true⟩
      else Except.error ⟨"lstat " ++ path ++ ": no such file or directory"⟩

/-- The function `readDirNames` of `path/filepath`: the names in a directory,
sorted. -/
def readDirNames (cwd : Key) (w : World) (dir : String) : Except Error (List String) :=
  match w.fault (SysCall.readDir (key cwd dir)) with
  | some e => Except.error e
  | none => Except.ok (dirNames w.fs (key cwd dir))

/-- The loop of `walk` in `path/filepath` over the names of the directory
`dir`; `walkRec` is `walk` itself. The result holds the entries handed to the
callback next to the result and the state; `none` when the depth allowed to
`walkRec` is used up. -/
def walkNames (cwd : Key)
    (walkRec : String → FileInfo → St World → Option (Option Error × St World × List Entry))
    (fn : String → FileInfo → Option Error → St World → Option Error × St World)
    (dir : String) :
    List String → St World → Option (Option Error × St World × List Entry)
  | [], s => some (none, s, [])
  | name :: rest, s =>
    match lstat cwd s.world (Join dir name) with
    | Except.error e =>
      match fn (Join dir name) noInfo (some e) s with
      | (some err, s1) => some (some err, s1, [⟨Join dir name, noInfo, some e⟩])
      | (none, s1) =>
        match walkNames cwd walkRec fn dir rest s1 with
        | none => none
        | some (r, s2, tr) => some (r, s2, ⟨Join dir name, noInfo, some e⟩ :: tr)
    | Except.ok info =>
      match walkRec (Join dir name) info s with
      | none => none
      | some (some err, s1, tr1) => some (some err, s1, tr1)
      | some (none, s1, tr1) =>
        match walkNames cwd walkRec fn dir rest s1 with
        | none => none
        | some (r, s2, tr2) => some (r, s2, tr1 ++ tr2)

/-- The function `walk` of `path/filepath`, to a depth of `fuel` directories:
a file is handed to the callback; of a directory the names are read first,
then the directory is handed to the callback, then the names are walked. -/
def walk (cwd : Key) (fn : String → FileInfo → Option Error → St World → Option Error × St World) :
    Nat → String → FileInfo → St World → Option (Option Error × St World × List Entry)
  | 0, _, _, _ => none
  | fuel + 1, path, info, s =>
    if info.isDir = false then
      some ((fn path info none s).1, (fn path info none s).2, [⟨path, info, none⟩])
    else
      match readDirNames cwd s.world path with
      | Except.error e =>
        some ((fn path info (some e) s).1, (fn path info (some e) s).2, [⟨path, info, some e⟩])
      | Except.ok names =>
        match fn path info none s with
        | (some err, s1) => some (some err, s1, [⟨path, info, none⟩])
        | (none, s1) =>
          match walkNames cwd (fun p i t => walk cwd fn fuel p i t) fn path names s1 with
          | none => none
          | some (r, s2, tr) => some (r, s2, ⟨path, info, none⟩ :: tr)

/-- The function `filepath.Walk(root, fn)` on the file system of the model,
to a depth of `fuel` directories. -/
def WalkFS (cwd : Key) (fuel : Nat)
    (fn : String → FileInfo → Option Error → St World → Option Error × St World)
    (root : String) (s : St World) : Option (Option Error × St World × List Entry) :=
  match lstat cwd s.world root with
  | Except.error e =>
    some ((fn root noInfo (some e) s).1, (fn root noInfo (some e) s).2,
      [⟨root, noInfo, some e⟩])
  | Except.ok info => walk cwd fn fuel root info s

/-- The function `run(root, out, cfg)` with the handlers of the
specification, the traversal being the one `filepath.Walk` makes of the file
system as the run changes it. -/
def runFS (cwd : Key) (fuel : Nat) (root : String) (out : Writer) (cfg : config)
    (s : St World) : Option (Option Error × St World × List Entry) :=
  WalkFS cwd fuel
    (walkFn (specHandlers cwd) root out cfg (logNew cfg.wLog "DELETED FILE: " LstdFlags))
    root s

/-! ## Concrete inputs -/

/-- Standard output. -/
def stdout : Writer := ⟨1⟩

/-- The buffer a test hands to `run` as `out`. -/
def outBuf : Writer := ⟨2⟩

/-- The buffer a test sets as `cfg.wLog`. -/
def logBuf : Writer := ⟨3⟩

/-- The file system `fs` with the directory `p` and those above it. -/
def addDir (cwd : Key) (fs : FS) (p : String) : FS :=
  (mkdirAll fs (key cwd p)).getD fs

/-- The file system `fs` with a file at `f.1` holding `f.2`, and the
directories above it. -/
def addFile (cwd : Key) (fs : FS) (f : String × String) : FS :=
  setNode ((mkdirAll fs (key cwd f.1).dropLast).getD fs) (key cwd f.1) (Node.file f.2)

/-- The working directory of the examples, `/work`. -/
def workDir : Key := ["work"]

/-- A world with the given directories and files (paths taken from
`workDir`), nothing written, a clock that always reads
`2024/01/01 00:00:00`, and an operating system that refuses nothing. -/
def worldOf (dirs : List String) (files : List (String × String)) : World :=
  { sink := fun _ => [], fs := files.foldl (addFile workDir) (dirs.foldl (addDir workDir) []),
    clock := fun _ => "2024/01/01 00:00:00", time := 0, fault := fun _ => none }

/-- A start state over `worldOf dirs files` with an empty trace. -/
def startOf (dirs : List String) (files : List (String × String)) : St World :=
  ⟨[], worldOf dirs files⟩

/-- The files under `testdata`. -/
def testdataFiles : List (String × String) :=
  [("testdata/dir.log", "hello world"), ("testdata/dir2/script.sh", "#!/bin/sh")]

/-- The traversal of the `testdata` directory of the tests (main_test.go,
line 20): the root, `dir.log` (11 bytes), the directory `dir2` and
`dir2/script.sh`. -/
def testdataWalk : List Entry :=
  [ ⟨"testdata", ⟨"testdata", 4096, true⟩, none⟩,
    ⟨"testdata/dir.log", ⟨"dir.log", 11, false⟩, none⟩,
    ⟨"testdata/dir2", ⟨"dir2", 4096, true⟩, none⟩,
    ⟨"testdata/dir2/script.sh", ⟨"script.sh", 9, false⟩, none⟩ ]

/-- Filter on `.log`, with `list` and `del` both set: the flags `-list -del`. -/
def cfgListDel : config :=
  { ext := ".log", size := 0, list := true, del := true, wLog := logBuf, archive := "" }

/-- Filter on `.log`, archive to `backup`, then delete: `-archive backup -del`. -/
def cfgArchiveDel : config :=
  { ext := ".log", size := 0, list := false, del := true, wLog := logBuf, archive := "backup" }

/-- A traversal whose third entry could not be read. -/
def brokenWalk : List Entry :=
  [ ⟨"testdata", ⟨"testdata", 4096, true⟩, none⟩,
    ⟨"testdata/dir.log", ⟨"dir.log", 11, false⟩, none⟩,
    ⟨"testdata/dir2", ⟨"", 0, false⟩, some ⟨"open testdata/dir2: permission denied"⟩⟩,
    ⟨"testdata/dir2/script.sh", ⟨"script.sh", 9, false⟩, none⟩ ]

/-- No filter, `list` only: the first case of `TestRun`. -/
def cfgList : config :=
  { ext := "", size := 0, list := true, del := false, wLog := logBuf, archive := "" }

/-- Every flag at once: `-list -del -archive backup`, filter on `.log`. -/
def cfgAll : config :=
  { ext := ".log", size := 0, list := true, del := true, wLog := logBuf, archive := "backup" }

/-- Archive only, as in `TestRunArchive`: `-ext .log -archive backup`. -/
def cfgArchive : config :=
  { ext := ".log", size := 0, list := false, del := false, wLog := logBuf,
    archive := "backup" }

/-- Delete only, as in `TestRunDelExtension`: `-ext .log -del`, the audit
records going to a buffer of their own. -/
def cfgDel : config :=
  { ext := ".log", size := 0, list := false, del := true, wLog := logBuf, archive := "" }

/-- Delete only, as `main` sets it up when no log file is given: the audit
records go to standard output (main.go, lines 42 and 63). -/
def cfgDelStdout : config :=
  { ext := ".log", size := 0, list := false, del := true, wLog := stdout, archive := "" }

/-- The traversal of the temporary directory of `TestRunDelExtension`, case
`DeleteExtensionMixed`: five `.gz` and five `.log` files of five bytes. -/
def tempDirWalk : List Entry :=
  [ ⟨"walktest", ⟨"walktest", 4096, true⟩, none⟩,
    ⟨"walktest/file1.gz", ⟨"file1.gz", 5, false⟩, none⟩,
    ⟨"walktest/file1.log", ⟨"file1.log", 5, false⟩, none⟩,
    ⟨"walktest/file2.gz", ⟨"file2.gz", 5, false⟩, none⟩,
    ⟨"walktest/file2.log", ⟨"file2.log", 5, false⟩, none⟩,
    ⟨"walktest/file3.gz", ⟨"file3.gz", 5, false⟩, none⟩,
    ⟨"walktest/file3.log", ⟨"file3.log", 5, false⟩, none⟩,
    ⟨"walktest/file4.gz", ⟨"file4.gz", 5, false⟩, none⟩,
    ⟨"walktest/file4.log", ⟨"file4.log", 5, false⟩, none⟩,
    ⟨"walktest/file5.gz", ⟨"file5.gz", 5, false⟩, none⟩,
    ⟨"walktest/file5.log", ⟨"file5.log", 5, false⟩, none⟩ ]

/-- The files of that temporary directory. -/
def tempDirFiles : List (String × String) :=
  (tempDirWalk.filter (fun e => !e.info.isDir)).map (fun e => (e.path, "dummy"))

/-- Archive next to listing: `-list -ext .log -archive backup`. -/
def cfgListArchive : config :=
  { ext := ".log", size := 0, list := true, del := false, wLog := logBuf,
    archive := "backup" }

/-- Archive into the traversal root itself, then delete:
`-ext .log -archive testdata -del` with root `testdata`. -/
def cfgArchiveOntoRoot : config :=
  { ext := ".log", size := 0, list := false, del := true, wLog := logBuf,
    archive := "testdata" }

/-- Archive into the traversal root itself: `-ext .log -archive testdata` with
root `testdata`. -/
def cfgCopyOntoRoot : config :=
  { ext := ".log", size := 0, list := false, del := false, wLog := logBuf,
    archive := "testdata" }

/-- Archive into the directory `b` under the root `.`: `-ext .log -archive b`. -/
def cfgArchiveInside : config :=
  { ext := ".log", size := 0, list := false, del := false, wLog := logBuf, archive := "b" }

/-- A tree with one file `a/x.log` and an empty directory `b`. -/
def insideStart : St World := startOf ["b"] [("a/x.log", "data")]

/-- The `testdata` tree under an operating system that refuses to make the
directory `backup`. -/
def readOnlyStart : St World :=
  ⟨[], { worldOf [] testdataFiles with
    fault := fun c =>
      if c = SysCall.mkdirAll ["work", "backup"] then some ⟨"mkdir backup: permission denied"⟩
      else none }⟩

/-! ## Lemmas on `Walk` and the callback -/

theorem Walk_nil {τ : Type} (fn : String → FileInfo → Option Error → τ → Option Error × τ)
    (s : τ) : Walk fn [] s = (none, s) := rfl

theorem Walk_cons_ok {τ : Type} (fn : String → FileInfo → Option Error → τ → Option Error × τ)
    (e : Entry) (es : List Entry) (s s1 : τ) (h : fn e.path e.info e.err s = (none, s1)) :
    Walk fn (e :: es) s = Walk fn es s1 := by
  simp [Walk, h]

theorem Walk_cons_err {τ : Type} (fn : String → FileInfo → Option Error → τ → Option Error × τ)
    (e : Entry) (es : List Entry) (s s1 : τ) (err : Error)
    (h : fn e.path e.info e.err s = (some err, s1)) :
    Walk fn (e :: es) s = (some err, s1) := by
  simp [Walk, h]

theorem Walk_append_ok {τ : Type} (fn : String → FileInfo → Option Error → τ → Option Error × τ)
    (pre post : List Entry) (s s1 : τ) (h : Walk fn pre s = (none, s1)) :
    Walk fn (pre ++ post) s = Walk fn post s1 := by
  induction pre generalizing s with
  | nil => simp [Walk] at h; simp [h]
  | cons e es ih =>
    rcases hfn : fn e.path e.info e.err s with ⟨r, s2⟩
    cases r with
    | none =>
      rw [Walk_cons_ok fn e es s s2 hfn] at h
      rw [List.cons_append, Walk_cons_ok fn e (es ++ post) s s2 hfn]
      exact ih s2 h
    | some err =>
      rw [Walk_cons_err fn e es s s2 err hfn] at h
      simp at h

theorem walkFn_err {σ : Type} (H : Handlers σ) (root : String) (out : Writer) (cfg : config) (lg : Logger)
    (path : String) (info : FileInfo) (e : Error) (s : St σ) :
    walkFn H root out cfg lg path info (some e) s = (some e, s) := rfl

theorem walkFn_excluded {σ : Type} (H : Handlers σ) (root : String) (out : Writer) (cfg : config)
    (lg : Logger) (path : String) (info : FileInfo) (s : St σ)
    (h : H.filterOut path cfg.ext cfg.size info = true) :
    walkFn H root out cfg lg path info none s
      = (none, ⟨s.calls ++ [Call.filterOut path cfg.ext cfg.size info], s.world⟩) := by
  simp [walkFn, h]

theorem walkFn_list {σ : Type} (H : Handlers σ) (root : String) (out : Writer) (cfg : config)
    (lg : Logger) (path : String) (info : FileInfo) (s : St σ)
    (h : H.filterOut path cfg.ext cfg.size info = false) (hl : cfg.list = true) :
    walkFn H root out cfg lg path info none s
      = ((H.listFile path out s.world).1,
         ⟨s.calls ++ [Call.filterOut path cfg.ext cfg.size info, Call.listFile path out],
          (H.listFile path out s.world).2⟩) := by
  simp [walkFn, h, hl, invoke]

theorem walkFn_noarchive_del {σ : Type} (H : Handlers σ) (root : String) (out : Writer) (cfg : config)
    (lg : Logger) (path : String) (info : FileInfo) (s : St σ)
    (h : H.filterOut path cfg.ext cfg.size info = false) (hl : cfg.list = false)
    (ha : cfg.archive = "") (hd : cfg.del = true) :
    walkFn H root out cfg lg path info none s
      = ((H.delFile path lg s.world).1,
         ⟨s.calls ++ [Call.filterOut path cfg.ext cfg.size info, Call.delFile path lg],
          (H.delFile path lg s.world).2⟩) := by
  simp [walkFn, h, hl, ha, hd, invoke]

theorem walkFn_noarchive_fallback {σ : Type} (H : Handlers σ) (root : String) (out : Writer) (cfg : config)
    (lg : Logger) (path : String) (info : FileInfo) (s : St σ)
    (h : H.filterOut path cfg.ext cfg.size info = false) (hl : cfg.list = false)
    (ha : cfg.archive = "") (hd : cfg.del = false) :
    walkFn H root out cfg lg path info none s
      = ((H.listFile path out s.world).1,
         ⟨s.calls ++ [Call.filterOut path cfg.ext cfg.size info, Call.listFile path out],
          (H.listFile path out s.world).2⟩) := by
  simp [walkFn, h, hl, ha, hd, invoke]

theorem walkFn_archive_fail {σ : Type} (H : Handlers σ) (root : String) (out : Writer) (cfg : config)
    (lg : Logger) (path : String) (info : FileInfo) (s : St σ) (e : Error) (w1 : σ)
    (h : H.filterOut path cfg.ext cfg.size info = false) (hl : cfg.list = false)
    (ha : cfg.archive ≠ "")
    (hr : H.archiveFile cfg.archive root path s.world = (some e, w1)) :
    walkFn H root out cfg lg path info none s
      = (some e,
         ⟨s.calls ++ [Call.filterOut path cfg.ext cfg.size info,
            Call.archiveFile cfg.archive root path], w1⟩) := by
  simp [walkFn, h, hl, ha, invoke, hr]

theorem walkFn_archive_del {σ : Type} (H : Handlers σ) (root : String) (out : Writer) (cfg : config)
    (lg : Logger) (path : String) (info : FileInfo) (s : St σ) (w1 : σ)
    (h : H.filterOut path cfg.ext cfg.size info = false) (hl : cfg.list = false)
    (ha : cfg.archive ≠ "") (hd : cfg.del = true)
    (hr : H.archiveFile cfg.archive root path s.world = (none, w1)) :
    walkFn H root out cfg lg path info none s
      = ((H.delFile path lg w1).1,
         ⟨s.calls ++ [Call.filterOut path cfg.ext cfg.size info,
            Call.archiveFile cfg.archive root path, Call.delFile path lg],
          (H.delFile path lg w1).2⟩) := by
  simp [walkFn, h, hl, ha, hd, invoke, hr]

theorem walkFn_archive_fallback {σ : Type} (H : Handlers σ) (root : String) (out : Writer) (cfg : config)
    (lg : Logger) (path : String) (info : FileInfo) (s : St σ) (w1 : σ)
    (h : H.filterOut path cfg.ext cfg.size info = false) (hl : cfg.list = false)
    (ha : cfg.archive ≠ "") (hd : cfg.del = false)
    (hr : H.archiveFile cfg.archive root path s.world = (none, w1)) :
    walkFn H root out cfg lg path info none s
      = ((H.listFile path out w1).1,
         ⟨s.calls ++ [Call.filterOut path cfg.ext cfg.size info,
            Call.archiveFile cfg.archive root path, Call.listFile path out],
          (H.listFile path out w1).2⟩) := by
  simp [walkFn, h, hl, ha, hd, invoke, hr]

/-- Every call the callback records beyond those already in the trace is the
evaluation of the filter or a handler call on the path of an entry that came
without a traversal error and that the filter does not exclude. -/
theorem walkFn_calls {σ : Type} (H : Handlers σ) (root : String) (out : Writer) (cfg : config)
    (lg : Logger) (path : String) (info : FileInfo) (err : Option Error) (s : St σ) :
    ∃ new : List Call, (walkFn H root out cfg lg path info err s).2.calls = s.calls ++ new ∧
      ∀ c ∈ new, c.isFilter = true ∨
        (err = none ∧ H.filterOut path cfg.ext cfg.size info = false ∧ c.path = path) := by
  cases err with
  | some e => exact ⟨[], by simp [walkFn], by simp⟩
  | none =>
    cases h : H.filterOut path cfg.ext cfg.size info with
    | true =>
      refine ⟨[Call.filterOut path cfg.ext cfg.size info], ?_, ?_⟩
      · rw [walkFn_excluded H root out cfg lg path info s h]
      · intro c hc
        simp at hc
        subst hc
        exact Or.inl rfl
    | false =>
      cases hl : cfg.list with
      | true =>
        refine ⟨[Call.filterOut path cfg.ext cfg.size info, Call.listFile path out], ?_, ?_⟩
        · rw [walkFn_list H root out cfg lg path info s h hl]
        · intro c hc
          simp at hc
          rcases hc with hc | hc <;> subst hc
          · exact Or.inl rfl
          · exact Or.inr ⟨rfl, rfl, rfl⟩
      | false =>
        by_cases ha : cfg.archive = ""
        · cases hd : cfg.del with
          | true =>
            refine ⟨[Call.filterOut path cfg.ext cfg.size info, Call.delFile path lg], ?_, ?_⟩
            · rw [walkFn_noarchive_del H root out cfg lg path info s h hl ha hd]
            · intro c hc
              simp at hc
              rcases hc with hc | hc <;> subst hc
              · exact Or.inl rfl
              · exact Or.inr ⟨rfl, rfl, rfl⟩
          | false =>
            refine ⟨[Call.filterOut path cfg.ext cfg.size info, Call.listFile path out], ?_, ?_⟩
            · rw [walkFn_noarchive_fallback H root out cfg lg path info s h hl ha hd]
            · intro c hc
              simp at hc
              rcases hc with hc | hc <;> subst hc
              · exact Or.inl rfl
              · exact Or.inr ⟨rfl, rfl, rfl⟩
        · rcases hr : H.archiveFile cfg.archive root path s.world with ⟨r, w1⟩
          cases r with
          | some e =>
            refine ⟨[Call.filterOut path cfg.ext cfg.size info,
              Call.archiveFile cfg.archive root path], ?_, ?_⟩
            · rw [walkFn_archive_fail H root out cfg lg path info s e w1 h hl ha hr]
            · intro c hc
              simp at hc
              rcases hc with hc | hc <;> subst hc
              · exact Or.inl rfl
              · exact Or.inr ⟨rfl, rfl, rfl⟩
          | none =>
            cases hd : cfg.del with
            | true =>
              refine ⟨[Call.filterOut path cfg.ext cfg.size info,
                Call.archiveFile cfg.archive root path, Call.delFile path lg], ?_, ?_⟩
              · rw [walkFn_archive_del H root out cfg lg path info s w1 h hl ha hd hr]
              · intro c hc
                simp at hc
                rcases hc with hc | hc | hc <;> subst hc
                · exact Or.inl rfl
                · exact Or.inr ⟨rfl, rfl, rfl⟩
                · exact Or.inr ⟨rfl, rfl, rfl⟩
            | false =>
              refine ⟨[Call.filterOut path cfg.ext cfg.size info,
                Call.archiveFile cfg.archive root path, Call.listFile path out], ?_, ?_⟩
              · rw [walkFn_archive_fallback H root out cfg lg path info s w1 h hl ha hd hr]
              · intro c hc
                simp at hc
                rcases hc with hc | hc | hc <;> subst hc
                · exact Or.inl rfl
                · exact Or.inr ⟨rfl, rfl, rfl⟩
                · exact Or.inr ⟨rfl, rfl, rfl⟩

/-- A property of the calls each step records is a property of the calls the
whole walk records. -/
theorem Walk_new_calls {σ : Type}
    (fn : String → FileInfo → Option Error → St σ → Option Error × St σ)
    (P : Call → Prop) (tr : List Entry)
    (hstep : ∀ e ∈ tr, ∀ s : St σ, ∃ new : List Call,
      (fn e.path e.info e.err s).2.calls = s.calls ++ new ∧ ∀ c ∈ new, P c)
    (s : St σ) :
    ∃ new : List Call, (Walk fn tr s).2.calls = s.calls ++ new ∧ ∀ c ∈ new, P c := by
  induction tr generalizing s with
  | nil => exact ⟨[], by simp [Walk], by simp⟩
  | cons e es ih =>
    obtain ⟨new1, h1, hP1⟩ := hstep e (List.mem_cons_self e es) s
    rcases hfn : fn e.path e.info e.err s with ⟨r, s1⟩
    rw [hfn] at h1
    simp only at h1
    cases r with
    | some err =>
      rw [Walk_cons_err fn e es s s1 err hfn]
      exact ⟨new1, h1, hP1⟩
    | none =>
      rw [Walk_cons_ok fn e es s s1 hfn]
      obtain ⟨new2, h2, hP2⟩ := ih (fun e1 he1 => hstep e1 (List.mem_cons_of_mem e he1)) s1
      refine ⟨new1 ++ new2, ?_, ?_⟩
      · rw [h2, h1, List.append_assoc]
      · intro c hc
        rcases List.mem_append.mp hc with hc | hc
        · exact hP1 c hc
        · exact hP2 c hc

/-- Every call a walk records is an evaluation of the filter or a handler
call on the path of an entry of the traversal that passes the filter. -/
theorem Walk_calls {σ : Type} (H : Handlers σ) (root : String) (out : Writer) (cfg : config)
    (lg : Logger) (tr : List Entry) (s : St σ) :
    ∃ new : List Call, (Walk (walkFn H root out cfg lg) tr s).2.calls = s.calls ++ new ∧
      ∀ c ∈ new, c.isFilter = true ∨ ∃ e ∈ passing H cfg tr, c.path = e.path := by
  apply Walk_new_calls
  intro e he s1
  obtain ⟨new, hnew, hprop⟩ := walkFn_calls H root out cfg lg e.path e.info e.err s1
  refine ⟨new, hnew, ?_⟩
  intro c hc
  rcases hprop c hc with hf | ⟨herr, hflt, hp⟩
  · exact Or.inl hf
  · refine Or.inr ⟨e, ?_, hp⟩
    simp [passing, he, herr, hflt]

/-- With `list` set, the callback records no call of Archive or Delete. -/
theorem walkFn_list_calls {σ : Type} (H : Handlers σ) (root : String) (out : Writer) (cfg : config)
    (lg : Logger) (path : String) (info : FileInfo) (err : Option Error) (s : St σ)
    (hl : cfg.list = true) :
    ∃ new : List Call, (walkFn H root out cfg lg path info err s).2.calls = s.calls ++ new ∧
      ∀ c ∈ new, c.isArchive = false ∧ c.isDel = false := by
  cases err with
  | some e => exact ⟨[], by simp [walkFn], by simp⟩
  | none =>
    cases h : H.filterOut path cfg.ext cfg.size info with
    | true =>
      refine ⟨[Call.filterOut path cfg.ext cfg.size info], ?_, ?_⟩
      · rw [walkFn_excluded H root out cfg lg path info s h]
      · intro c hc
        simp at hc
        subst hc
        exact ⟨rfl, rfl⟩
    | false =>
      refine ⟨[Call.filterOut path cfg.ext cfg.size info, Call.listFile path out], ?_, ?_⟩
      · rw [walkFn_list H root out cfg lg path info s h hl]
      · intro c hc
        simp at hc
        rcases hc with hc | hc <;> subst hc <;> exact ⟨rfl, rfl⟩

/-- With `list` set, the callback leaves the state as it is or as List leaves
it. -/
theorem walkFn_list_world {σ : Type} (H : Handlers σ) (root : String) (out : Writer) (cfg : config)
    (lg : Logger) (path : String) (info : FileInfo) (err : Option Error) (s : St σ)
    (hl : cfg.list = true) :
    (walkFn H root out cfg lg path info err s).2.world = s.world ∨
      (walkFn H root out cfg lg path info err s).2.world = (H.listFile path out s.world).2 := by
  cases err with
  | some e => exact Or.inl rfl
  | none =>
    cases h : H.filterOut path cfg.ext cfg.size info with
    | true => rw [walkFn_excluded H root out cfg lg path info s h]; exact Or.inl rfl
    | false => rw [walkFn_list H root out cfg lg path info s h hl]; exact Or.inr rfl

/-- An observation of the state that every step keeps is kept by the walk. -/
theorem Walk_obs {σ α : Type}
    (fn : String → FileInfo → Option Error → St σ → Option Error × St σ)
    (obs : σ → α) (tr : List Entry)
    (hstep : ∀ e ∈ tr, ∀ s : St σ, obs (fn e.path e.info e.err s).2.world = obs s.world)
    (s : St σ) : obs (Walk fn tr s).2.world = obs s.world := by
  induction tr generalizing s with
  | nil => rfl
  | cons e es ih =>
    have h1 := hstep e (List.mem_cons_self e es) s
    rcases hfn : fn e.path e.info e.err s with ⟨r, s1⟩
    rw [hfn] at h1
    simp only at h1
    cases r with
    | some err => rw [Walk_cons_err fn e es s s1 err hfn]; exact h1
    | none =>
      rw [Walk_cons_ok fn e es s s1 hfn,
        ih (fun e1 he1 => hstep e1 (List.mem_cons_of_mem e he1)) s1]
      exact h1

/-- A walk that succeeds on `e :: es` succeeded on `e` and then on `es`. -/
theorem Walk_cons_inv {τ : Type} (fn : String → FileInfo → Option Error → τ → Option Error × τ)
    (e : Entry) (es : List Entry) (s s1 : τ) (h : Walk fn (e :: es) s = (none, s1)) :
    ∃ s2 : τ, fn e.path e.info e.err s = (none, s2) ∧ Walk fn es s2 = (none, s1) := by
  rcases hfn : fn e.path e.info e.err s with ⟨r, s2⟩
  cases r with
  | some err =>
    rw [Walk_cons_err fn e es s s2 err hfn] at h
    simp at h
  | none =>
    rw [Walk_cons_ok fn e es s s2 hfn] at h
    exact ⟨s2, rfl, h⟩

/-- With `list` and `del` off: if a walk succeeds, the listing walk with the
same filter succeeds from any state with the same primary output and ends
with the same primary output, provided a successful Archive leaves the
primary output alone and List acts on the primary output only. -/
theorem Walk_fallback_sim {σ α : Type} (H : Handlers σ) (root : String) (out : Writer) (cfg : config)
    (lg : Logger) (po : σ → α) (hl : cfg.list = false) (hd : cfg.del = false)
    (hA : ∀ (d r p : String) (w w1 : σ), H.archiveFile d r p w = (none, w1) → po w1 = po w)
    (hL : ∀ (p : String) (w1 w2 : σ), po w1 = po w2 →
      (H.listFile p out w1).1 = (H.listFile p out w2).1
        ∧ po (H.listFile p out w1).2 = po (H.listFile p out w2).2)
    (tr : List Entry) (s t s1 : St σ) (hst : po s.world = po t.world)
    (hrun : Walk (walkFn H root out cfg lg) tr s = (none, s1)) :
    ∃ t1 : St σ, Walk (walkFn H root out (listOnly cfg) lg) tr t = (none, t1)
      ∧ po t1.world = po s1.world := by
  induction tr generalizing s t with
  | nil =>
    simp [Walk] at hrun
    exact ⟨t, rfl, by rw [← hrun, hst]⟩
  | cons e es ih =>
    obtain ⟨s2, hstep, hrest⟩ := Walk_cons_inv _ e es s s1 hrun
    cases he : e.err with
    | some err =>
      rw [he, walkFn_err] at hstep
      simp at hstep
    | none =>
      rw [he] at hstep
      cases hf : H.filterOut e.path cfg.ext cfg.size e.info with
      | true =>
        rw [walkFn_excluded H root out cfg lg e.path e.info s hf] at hstep
        have hs2 : s2.world = s.world := by
          have := congrArg (fun r => r.2.world) hstep
          exact this.symm
        have htstep : walkFn H root out (listOnly cfg) lg e.path e.info e.err t
            = (none, ⟨t.calls ++ [Call.filterOut e.path cfg.ext cfg.size e.info], t.world⟩) := by
          rw [he]
          exact walkFn_excluded H root out (listOnly cfg) lg e.path e.info t hf
        rw [Walk_cons_ok _ e es t _ htstep]
        exact ih s2 _ (by rw [hs2]; exact hst) hrest
      | false =>
        have hlist : ∀ w1 : σ, po w1 = po t.world →
            (H.listFile e.path out w1).1 = none → s2.world = (H.listFile e.path out w1).2 →
            ∃ t1 : St σ, Walk (walkFn H root out (listOnly cfg) lg) (e :: es) t = (none, t1)
              ∧ po t1.world = po s1.world := by
          intro w1 hw1 hok hs2
          have htstep : walkFn H root out (listOnly cfg) lg e.path e.info e.err t
              = (none, ⟨t.calls ++ [Call.filterOut e.path cfg.ext cfg.size e.info,
                  Call.listFile e.path out], (H.listFile e.path out t.world).2⟩) := by
            rw [he, walkFn_list H root out (listOnly cfg) lg e.path e.info t hf rfl,
              ← (hL e.path w1 t.world hw1).1, hok]
            rfl
          rw [Walk_cons_ok _ e es t _ htstep]
          exact ih s2 _ (by rw [hs2]; exact (hL e.path w1 t.world hw1).2) hrest
        by_cases ha : cfg.archive = ""
        · rw [walkFn_noarchive_fallback H root out cfg lg e.path e.info s hf hl ha hd] at hstep
          have h1 := congrArg (fun r => r.1) hstep
          have h2 := congrArg (fun r => r.2.world) hstep
          exact hlist s.world hst h1 h2.symm
        · rcases hr : H.archiveFile cfg.archive root e.path s.world with ⟨r, w1⟩
          cases r with
          | some err =>
            rw [walkFn_archive_fail H root out cfg lg e.path e.info s err w1 hf hl ha hr] at hstep
            simp at hstep
          | none =>
            rw [walkFn_archive_fallback H root out cfg lg e.path e.info s w1 hf hl ha hd hr] at hstep
            have h1 := congrArg (fun r => r.1) hstep
            have h2 := congrArg (fun r => r.2.world) hstep
            exact hlist w1 ((hA _ _ _ _ _ hr).trans hst) h1 h2.symm


/-! ## Lemmas on the file system -/

theorem getNode_delNode (fs : FS) (k q : Key) :
    getNode (delNode fs k) q = if q = k then none else getNode fs q := by
  induction fs with
  | nil => simp [delNode, getNode]
  | cons x rest ih =>
    obtain ⟨k1, n1⟩ := x
    unfold delNode at ih ⊢
    by_cases h1 : k1 = k
    · subst h1
      by_cases hq : q = k1
      · simp [List.filter, getNode, hq] at ih ⊢
        exact ih
      · simp [List.filter, getNode, hq] at ih ⊢
        exact ih
    · by_cases hq : q = k
      · subst hq
        have hq1 : ¬ q = k1 := fun h => h1 h.symm
        simp [List.filter, getNode, h1, hq1] at ih ⊢
        exact ih
      · simp [List.filter, getNode, h1, hq] at ih ⊢
        rw [ih]

theorem getNode_setNode (fs : FS) (k : Key) (n : Node) (q : Key) :
    getNode (setNode fs k n) q = if q = k then some n else getNode fs q := by
  unfold setNode
  by_cases hq : q = k
  · simp [getNode, hq]
  · simp [getNode, hq, getNode_delNode]

theorem mkdirsFrom_file (fs : FS) (pre : Key) (l : List String) (fs1 : FS)
    (h : mkdirsFrom fs pre l = some fs1) (q : Key) (x : String) :
    getNode fs1 q = some (Node.file x) ↔ getNode fs q = some (Node.file x) := by
  induction l generalizing fs pre with
  | nil =>
    simp [mkdirsFrom] at h
    rw [h]
  | cons n rest ih =>
    unfold mkdirsFrom at h
    split at h
    · simp at h
    · exact ih fs (pre ++ [n]) h
    · rename_i hnone
      rw [ih _ (pre ++ [n]) h, getNode_setNode]
      by_cases hq : q = pre ++ [n]
      · subst hq
        simp [hnone]
      · simp [hq]

theorem mkdirsFrom_keeps (fs : FS) (pre : Key) (l : List String) (fs1 : FS)
    (h : mkdirsFrom fs pre l = some fs1) (q : Key) (hq : getNode fs q ≠ none) :
    getNode fs1 q = getNode fs q := by
  induction l generalizing fs pre with
  | nil =>
    simp [mkdirsFrom] at h
    rw [h]
  | cons n rest ih =>
    unfold mkdirsFrom at h
    split at h
    · simp at h
    · exact ih fs (pre ++ [n]) h hq
    · rename_i hnone
      have hne : q ≠ pre ++ [n] := fun hh => hq (hh ▸ hnone)
      have h1 : getNode (setNode fs (pre ++ [n]) Node.dir) q = getNode fs q := by
        rw [getNode_setNode]; simp [hne]
      rw [ih _ (pre ++ [n]) h (by rw [h1]; exact hq), h1]

theorem stripPre_eq (pre k r : Key) (h : stripPre pre k = some r) : k = pre ++ r := by
  induction pre generalizing k with
  | nil => simp [stripPre] at h; simp [h]
  | cons a pre ih =>
    cases k with
    | nil => simp [stripPre] at h
    | cons b k =>
      simp only [stripPre] at h
      split at h
      · rename_i hab
        rw [hab, List.cons_append, ← ih k h]
      · simp at h

/-- Two paths under the root with the same mirrored place name the same
place. -/
theorem mirror_inj (cwd : Key) (destDir root p q : String) (d : Key)
    (hp : mirror cwd destDir root p = some d) (hq : mirror cwd destDir root q = some d) :
    key cwd p = key cwd q := by
  unfold mirror relSegs at hp hq
  cases h1 : stripPre (key cwd root) (key cwd p) with
  | none => rw [h1] at hp; simp at hp
  | some r1 =>
    cases h2 : stripPre (key cwd root) (key cwd q) with
    | none => rw [h2] at hq; simp at hq
    | some r2 =>
      rw [h1] at hp
      rw [h2] at hq
      simp at hp hq
      have : r1 = r2 := List.append_cancel_left (hp.trans hq.symm)
      rw [stripPre_eq _ _ _ h1, stripPre_eq _ _ _ h2, this]

/-! ## Lemmas on the handlers of the specification -/

theorem filterOut_dir (path ext : String) (minSize : Int) (info : FileInfo)
    (h : info.isDir = true) : filterOut path ext minSize info = true := by
  simp [filterOut, h]

theorem filterOut_false_file (path ext : String) (minSize : Int) (info : FileInfo)
    (h : filterOut path ext minSize info = false) : info.isDir = false := by
  cases hd : info.isDir with
  | false => rfl
  | true => rw [filterOut_dir path ext minSize info hd] at h; cases h

theorem listFile_ok (path : String) (out : Writer) (w w1 : World)
    (h : listFile path out w = (none, w1)) :
    w1 = { w with sink := writeTo w.sink out (path ++ "\n") } := by
  unfold listFile at h
  split at h
  · simp at h
  · simp at h
    exact h.symm

theorem listFile_of_no_fault (path : String) (out : Writer) (w : World)
    (h : w.fault (SysCall.write out (w.sink out).length) = none) :
    listFile path out w = (none, { w with sink := writeTo w.sink out (path ++ "\n") }) := by
  simp [listFile, h]

theorem listFile_frame (path : String) (out : Writer) (w : World) :
    (listFile path out w).2.fs = w.fs ∧ (listFile path out w).2.time = w.time
      ∧ (listFile path out w).2.clock = w.clock ∧ (listFile path out w).2.fault = w.fault
      ∧ ∀ x : Writer, x ≠ out → (listFile path out w).2.sink x = w.sink x := by
  unfold listFile
  split
  · simp
  · refine ⟨rfl, rfl, rfl, rfl, ?_⟩
    intro x hx
    simp [writeTo, hx]

theorem delFile_ok (cwd : Key) (path : String) (lg : Logger) (w w1 : World)
    (h : delFile cwd path lg w = (none, w1)) :
    getNode w.fs (key cwd path) ≠ none ∧
      w1 = { w with
        fs := delNode w.fs (key cwd path)
        sink := writeTo w.sink lg.out (lg.pfx ++ w.clock w.time ++ " " ++ path ++ "\n")
        time := w.time + 1 } := by
  unfold delFile at h
  split at h
  · simp at h
  · split at h
    · simp at h
    · rename_i n hn
      split at h
      · simp at h
      · split at h
        · simp at h
        · simp at h
          exact ⟨by simp [hn], h.symm⟩

theorem archiveFile_ok (cwd : Key) (destDir root path : String) (w w1 : World)
    (h : archiveFile cwd destDir root path w = (none, w1)) :
    ∃ (t : Key) (data : String), mirror cwd destDir root path = some t
      ∧ getNode w1.fs t = some (Node.file data)
      ∧ (key cwd path ≠ t → getNode w.fs (key cwd path) = some (Node.file data))
      ∧ (∃ x : String, getNode w.fs (key cwd path) = some (Node.file x))
      ∧ (∀ (q : Key) (x : String), q ≠ t →
          (getNode w1.fs q = some (Node.file x) ↔ getNode w.fs q = some (Node.file x)))
      ∧ w1.sink = w.sink ∧ w1.time = w.time ∧ w1.clock = w.clock ∧ w1.fault = w.fault := by
  unfold archiveFile at h
  split at h
  · simp at h
  · rename_i t hm0
    have hm : mirror cwd destDir root path = some t := by
      by_cases hp : path = ""
      · simp [hp] at hm0
      · simpa [hp] using hm0
    split at h
    · simp at h
    · split at h
      · simp at h
      · rename_i fs1 hmk
        have hfile : ∀ (q : Key) (x : String),
            getNode fs1 q = some (Node.file x) ↔ getNode w.fs q = some (Node.file x) :=
          fun q x => mkdirsFrom_file w.fs [] _ fs1 hmk q x
        split at h
        · simp at h
        · rename_i n0 hsrc
          split at h
          · simp at h
          · split at h
            · simp at h
            · rename_i hnd
              split at h
              · simp at h
              · split at h
                · simp at h
                · split at h
                  · rename_i data hdata
                    simp at h
                    subst h
                    refine ⟨t, data, hm, ?_, ?_, ?_, ?_, rfl, rfl, rfl, rfl⟩
                    · simp [getNode_setNode]
                    · intro hne
                      rw [getNode_setNode] at hdata
                      simp [hne] at hdata
                      exact (hfile _ _).mp hdata
                    · by_cases hst : key cwd path = t
                      · have hnd1 : getNode fs1 t ≠ some Node.dir := by
                          intro hh
                          apply hnd
                          simp [isDirAt, hh]
                        rw [hst] at hsrc ⊢
                        cases n0 with
                        | dir => exact absurd hsrc hnd1
                        | file x => exact ⟨x, (hfile _ _).mp hsrc⟩
                      · rw [getNode_setNode] at hdata
                        simp [hst] at hdata
                        exact ⟨data, (hfile _ _).mp hdata⟩
                    · intro q x hq
                      simp only [getNode_setNode, hq, if_false]
                      exact hfile q x
                  · simp at h

theorem text_append (a b : List String) : text (a ++ b) = text a ++ text b := by
  induction a with
  | nil => simp [text]
  | cons x rest ih => simp [text, ih, String.append_assoc]

theorem text_lines (es : List Entry) :
    text (es.map (fun e => e.path ++ "\n")) = listing es := by
  induction es with
  | nil => rfl
  | cons e rest ih => simp [text, listing, ih]

theorem auditRecords_length (lg : Logger) (clock : Nat → String) (n : Nat)
    (es : List Entry) : (auditRecords lg clock n es).length = es.length := by
  induction es generalizing n with
  | nil => rfl
  | cons e es ih => simp [auditRecords, ih]

/-- A listing run over a traversal without errors, on a writer that takes
every write: it succeeds and writes the path of each passing entry, with a
newline, to `out`, and nothing else changes. -/
theorem Walk_list_spec (cwd : Key) (root : String) (out : Writer) (cfg : config)
    (lg : Logger) (hl : cfg.list = true)
    (tr : List Entry) (herr : ∀ e ∈ tr, e.err = none) (s : St World)
    (hw : ∀ n : Nat, s.world.fault (SysCall.write out n) = none) :
    (Walk (walkFn (specHandlers cwd) root out cfg lg) tr s).1 = none ∧
      (Walk (walkFn (specHandlers cwd) root out cfg lg) tr s).2.world
        = { s.world with
            sink := fun x =>
              if x = out then
                s.world.sink out
                  ++ (passing (specHandlers cwd) cfg tr).map (fun e => e.path ++ "\n")
              else s.world.sink x } := by
  induction tr generalizing s with
  | nil =>
    refine ⟨rfl, ?_⟩
    have : (fun x => if x = out then s.world.sink out else s.world.sink x)
        = s.world.sink := by
      funext x
      by_cases hx : x = out <;> simp [hx]
    simp [Walk, passing, this]
  | cons e es ih =>
    have he : e.err = none := herr e (List.mem_cons_self e es)
    have hes : ∀ e1 ∈ es, e1.err = none := fun e1 h1 => herr e1 (List.mem_cons_of_mem e h1)
    cases hf : (specHandlers cwd).filterOut e.path cfg.ext cfg.size e.info with
    | true =>
      have hstep : walkFn (specHandlers cwd) root out cfg lg e.path e.info e.err s
          = (none, ⟨s.calls ++ [Call.filterOut e.path cfg.ext cfg.size e.info], s.world⟩) := by
        rw [he]; exact walkFn_excluded (specHandlers cwd) root out cfg lg e.path e.info s hf
      rw [Walk_cons_ok _ e es s _ hstep]
      have hp : passing (specHandlers cwd) cfg (e :: es) = passing (specHandlers cwd) cfg es := by
        simp [passing, hf]
      rw [hp]
      exact ih hes _ hw
    | false =>
      have hlist : (specHandlers cwd).listFile e.path out s.world
          = (none, { s.world with sink := writeTo s.world.sink out (e.path ++ "\n") }) :=
        listFile_of_no_fault e.path out s.world (hw _)
      have hstep : walkFn (specHandlers cwd) root out cfg lg e.path e.info e.err s
          = (none, ⟨s.calls ++ [Call.filterOut e.path cfg.ext cfg.size e.info,
              Call.listFile e.path out],
              { s.world with sink := writeTo s.world.sink out (e.path ++ "\n") }⟩) := by
        rw [he, walkFn_list (specHandlers cwd) root out cfg lg e.path e.info s hf hl, hlist]
      rw [Walk_cons_ok _ e es s _ hstep]
      have hp : passing (specHandlers cwd) cfg (e :: es)
          = e :: passing (specHandlers cwd) cfg es := by
        simp [passing, hf, he]
      rw [hp]
      have := ih hes ⟨s.calls ++ [Call.filterOut e.path cfg.ext cfg.size e.info,
        Call.listFile e.path out],
        { s.world with sink := writeTo s.world.sink out (e.path ++ "\n") }⟩ hw
      refine ⟨this.1, ?_⟩
      rw [this.2]
      have hs : (fun x => if x = out then
            writeTo s.world.sink out (e.path ++ "\n") out
              ++ (passing (specHandlers cwd) cfg es).map (fun e => e.path ++ "\n")
          else writeTo s.world.sink out (e.path ++ "\n") x)
          = (fun x => if x = out then
            s.world.sink out ++ (e :: passing (specHandlers cwd) cfg es).map
              (fun e => e.path ++ "\n")
          else s.world.sink x) := by
        funext x
        by_cases hx : x = out
        · simp [hx, writeTo]
        · simp [hx, writeTo]
      simp only
      rw [hs]

/-- With `del` on, `list` off and no archive destination, the callback
records no call of List or Archive. -/
theorem walkFn_del_calls {σ : Type} (H : Handlers σ) (root : String) (out : Writer)
    (cfg : config) (lg : Logger) (path : String) (info : FileInfo) (err : Option Error)
    (s : St σ) (hd : cfg.del = true) (hl : cfg.list = false) (ha : cfg.archive = "") :
    ∃ new : List Call, (walkFn H root out cfg lg path info err s).2.calls = s.calls ++ new ∧
      ∀ c ∈ new, c.isList = false ∧ c.isArchive = false := by
  cases err with
  | some e => exact ⟨[], by simp [walkFn], by simp⟩
  | none =>
    cases h : H.filterOut path cfg.ext cfg.size info with
    | true =>
      refine ⟨[Call.filterOut path cfg.ext cfg.size info], ?_, ?_⟩
      · rw [walkFn_excluded H root out cfg lg path info s h]
      · intro c hc
        simp at hc
        subst hc
        exact ⟨rfl, rfl⟩
    | false =>
      refine ⟨[Call.filterOut path cfg.ext cfg.size info, Call.delFile path lg], ?_, ?_⟩
      · rw [walkFn_noarchive_del H root out cfg lg path info s h hl ha hd]
      · intro c hc
        simp at hc
        rcases hc with hc | hc <;> subst hc <;> exact ⟨rfl, rfl⟩

/-- A successful run in delete mode (`del` on, `list` off, no archive): what
it leaves, in terms of the entries that pass the filter. -/
theorem Walk_del_spec (cwd : Key) (root : String) (out : Writer) (cfg : config) (lg : Logger)
    (hd : cfg.del = true) (hl : cfg.list = false) (ha : cfg.archive = "")
    (tr : List Entry) (s s1 : St World)
    (hrun : Walk (walkFn (specHandlers cwd) root out cfg lg) tr s = (none, s1)) :
    s1.world.clock = s.world.clock
      ∧ s1.world.time = s.world.time + (passing (specHandlers cwd) cfg tr).length
      ∧ (∀ x : Writer, s1.world.sink x
          = if x = lg.out then
              s.world.sink x ++ auditRecords lg s.world.clock s.world.time
                (passing (specHandlers cwd) cfg tr)
            else s.world.sink x)
      ∧ ((passing (specHandlers cwd) cfg tr).map (fun e => key cwd e.path)).Nodup
      ∧ (∀ e ∈ passing (specHandlers cwd) cfg tr, getNode s.world.fs (key cwd e.path) ≠ none)
      ∧ (∀ k : Key, getNode s1.world.fs k
          = if k ∈ (passing (specHandlers cwd) cfg tr).map (fun e => key cwd e.path) then none
            else getNode s.world.fs k)
      ∧ s1.calls.filter Call.isDel = s.calls.filter Call.isDel
          ++ (passing (specHandlers cwd) cfg tr).map (fun e => Call.delFile e.path lg) := by
  induction tr generalizing s with
  | nil =>
    simp [Walk] at hrun
    subst hrun
    simp [passing, auditRecords]
  | cons e es ih =>
    obtain ⟨s2, hstep, hrest⟩ := Walk_cons_inv _ e es s s1 hrun
    cases he : e.err with
    | some err =>
      rw [he, walkFn_err] at hstep
      simp at hstep
    | none =>
      rw [he] at hstep
      cases hf : (specHandlers cwd).filterOut e.path cfg.ext cfg.size e.info with
      | true =>
        rw [walkFn_excluded (specHandlers cwd) root out cfg lg e.path e.info s hf] at hstep
        have hp : passing (specHandlers cwd) cfg (e :: es)
            = passing (specHandlers cwd) cfg es := by
          simp [passing, hf]
        have hs2 : s2 = ⟨s.calls ++ [Call.filterOut e.path cfg.ext cfg.size e.info],
            s.world⟩ := (congrArg Prod.snd hstep).symm
        have := ih s2 hrest
        rw [hp]
        rw [hs2] at this
        simpa [List.filter_append, Call.isDel] using this
      | false =>
        rw [walkFn_noarchive_del (specHandlers cwd) root out cfg lg e.path e.info s hf hl ha hd]
          at hstep
        have h1 : ((specHandlers cwd).delFile e.path lg s.world).1 = none :=
          congrArg Prod.fst hstep
        have h2 : s2 = ⟨s.calls ++ [Call.filterOut e.path cfg.ext cfg.size e.info,
            Call.delFile e.path lg], ((specHandlers cwd).delFile e.path lg s.world).2⟩ :=
          (congrArg Prod.snd hstep).symm
        obtain ⟨hex, hw⟩ := delFile_ok cwd e.path lg s.world
          ((specHandlers cwd).delFile e.path lg s.world).2 (Prod.ext h1 rfl)
        have hp : passing (specHandlers cwd) cfg (e :: es)
            = e :: passing (specHandlers cwd) cfg es := by
          simp [passing, hf, he]
        obtain ⟨iclock, itime, isink, inodup, iex, ifs, icalls⟩ := ih s2 hrest
        rw [h2] at iclock itime isink iex ifs icalls
        simp only at iclock itime isink iex ifs icalls
        rw [hw] at iclock itime isink iex ifs
        simp only at iclock itime isink iex ifs
        rw [hp]
        refine ⟨iclock, ?_, ?_, ?_, ?_, ?_, ?_⟩
        · rw [itime, List.length_cons]
          omega
        · intro x
          rw [isink x]
          by_cases hx : x = lg.out
          · simp [hx, writeTo, auditRecords]
          · simp [hx, writeTo]
        · rw [List.map_cons, List.nodup_cons]
          refine ⟨?_, inodup⟩
          intro hmem
          obtain ⟨e1, he1, hpath⟩ := List.mem_map.mp hmem
          have := iex e1 he1
          rw [hpath, getNode_delNode] at this
          simp at this
        · intro e1 he1
          rcases List.mem_cons.mp he1 with h | h
          · rw [h]; exact hex
          · have := iex e1 h
            rw [getNode_delNode] at this
            split at this
            · exact absurd rfl this
            · exact this
        · intro k
          rw [ifs k, getNode_delNode]
          by_cases hke : k = key cwd e.path
          · simp [hke]
          · simp [hke]
        · rw [icalls]
          simp [List.filter_append, Call.isDel]

theorem archiveFile_keeps_out (cwd : Key) (out : Writer) (d r p : String) (w w1 : World)
    (h : (specHandlers cwd).archiveFile d r p w = (none, w1)) :
    (w1.sink out, w1.fault) = (w.sink out, w.fault) := by
  obtain ⟨_, _, _, _, _, _, _, hs, _, _, hf⟩ := archiveFile_ok cwd d r p w w1 h
  rw [hs, hf]

theorem listFile_on_out (out : Writer) (p : String) (w1 w2 : World)
    (h : (w1.sink out, w1.fault) = (w2.sink out, w2.fault)) :
    (listFile p out w1).1 = (listFile p out w2).1
      ∧ ((listFile p out w1).2.sink out, (listFile p out w1).2.fault)
          = ((listFile p out w2).2.sink out, (listFile p out w2).2.fault) := by
  have ho : w1.sink out = w2.sink out := congrArg Prod.fst h
  have hf : w1.fault = w2.fault := congrArg Prod.snd h
  unfold listFile
  rw [ho, hf]
  split <;> simp [ho, hf, writeTo]

/-- One successful step of the callback on an entry that passes the filter,
with `list` off and an archive destination: the Archive call it records and
what it does to the files. -/
theorem archive_mode_step (cwd : Key) (root : String) (out : Writer) (cfg : config)
    (lg : Logger) (hl : cfg.list = false) (ha : cfg.archive ≠ "") (e : Entry) (s s2 : St World)
    (hf : (specHandlers cwd).filterOut e.path cfg.ext cfg.size e.info = false)
    (hstep : walkFn (specHandlers cwd) root out cfg lg e.path e.info none s = (none, s2)) :
    ∃ (t : Key) (data : String), mirror cwd cfg.archive root e.path = some t
      ∧ s2.calls.filter Call.isArchive
          = s.calls.filter Call.isArchive ++ [Call.archiveFile cfg.archive root e.path]
      ∧ (∀ (q : Key) (x : String), getNode s2.world.fs q = some (Node.file x) →
          q = t ∨ getNode s.world.fs q = some (Node.file x))
      ∧ (key cwd e.path ≠ t →
          getNode s.world.fs (key cwd e.path) = some (Node.file data)
            ∧ getNode s2.world.fs t = some (Node.file data))
      ∧ (∀ (q : Key) (x : String), getNode s.world.fs q = some (Node.file x) → q ≠ t →
          (cfg.del = true → q ≠ key cwd e.path) →
          getNode s2.world.fs q = some (Node.file x)) := by
  rcases hr : (specHandlers cwd).archiveFile cfg.archive root e.path s.world with ⟨r, w1⟩
  cases r with
  | some err =>
    rw [walkFn_archive_fail (specHandlers cwd) root out cfg lg e.path e.info s err w1 hf hl ha hr]
      at hstep
    simp at hstep
  | none =>
    obtain ⟨t, data, hm, hcopy, hsrc, _, hrest, _, _, _, _⟩ :=
      archiveFile_ok cwd cfg.archive root e.path s.world w1 hr
    refine ⟨t, data, hm, ?_⟩
    cases hd : cfg.del with
    | true =>
      rw [walkFn_archive_del (specHandlers cwd) root out cfg lg e.path e.info s w1 hf hl ha hd hr]
        at hstep
      have h1 : ((specHandlers cwd).delFile e.path lg w1).1 = none := congrArg Prod.fst hstep
      have h2 : s2 = ⟨s.calls ++ [Call.filterOut e.path cfg.ext cfg.size e.info,
          Call.archiveFile cfg.archive root e.path, Call.delFile e.path lg],
          ((specHandlers cwd).delFile e.path lg w1).2⟩ := (congrArg Prod.snd hstep).symm
      obtain ⟨_, hw2⟩ := delFile_ok cwd e.path lg w1 ((specHandlers cwd).delFile e.path lg w1).2
        (Prod.ext h1 rfl)
      rw [h2]
      simp only
      rw [hw2]
      simp only
      refine ⟨by simp [List.filter_append, Call.isArchive], ?_, ?_, ?_⟩
      · intro q x hq
        rw [getNode_delNode] at hq
        by_cases hqt : q = t
        · exact Or.inl hqt
        · right
          split at hq
          · simp at hq
          · exact (hrest q x hqt).mp hq
      · intro hne
        refine ⟨hsrc hne, ?_⟩
        rw [getNode_delNode]
        have : ¬ t = key cwd e.path := fun h => hne h.symm
        simp [this, hcopy]
      · intro q x hq hqt hqe
        rw [getNode_delNode]
        simp [hqe trivial]
        exact (hrest q x hqt).mpr hq
    | false =>
      rw [walkFn_archive_fallback (specHandlers cwd) root out cfg lg e.path e.info s w1 hf hl ha
        hd hr] at hstep
      have h1 : ((specHandlers cwd).listFile e.path out w1).1 = none := congrArg Prod.fst hstep
      have h2 : s2 = ⟨s.calls ++ [Call.filterOut e.path cfg.ext cfg.size e.info,
          Call.archiveFile cfg.archive root e.path, Call.listFile e.path out],
          ((specHandlers cwd).listFile e.path out w1).2⟩ := (congrArg Prod.snd hstep).symm
      have hw2 := listFile_ok e.path out w1 ((specHandlers cwd).listFile e.path out w1).2
        (Prod.ext h1 rfl)
      rw [h2]
      simp only
      rw [hw2]
      simp only
      refine ⟨by simp [List.filter_append, Call.isArchive], ?_, ?_, ?_⟩
      · intro q x hq
        by_cases hqt : q = t
        · exact Or.inl hqt
        · exact Or.inr ((hrest q x hqt).mp hq)
      · intro hne
        exact ⟨hsrc hne, hcopy⟩
      · intro q x hq hqt _
        exact (hrest q x hqt).mpr hq

/-- A successful run with `list` off and an archive destination keeps the file
at `d` with its contents when no passing entry is at `d`, and every passing
entry whose copy goes to `d` has these contents. -/
theorem Walk_archive_keeps (cwd : Key) (root : String) (out : Writer) (cfg : config)
    (lg : Logger) (hl : cfg.list = false) (ha : cfg.archive ≠ "") (d : Key) (data : String)
    (tr : List Entry) (s s1 : St World)
    (hrun : Walk (walkFn (specHandlers cwd) root out cfg lg) tr s = (none, s1))
    (hd : getNode s.world.fs d = some (Node.file data))
    (h2 : ∀ q ∈ passing (specHandlers cwd) cfg tr, key cwd q.path ≠ d)
    (h3 : ∀ q ∈ passing (specHandlers cwd) cfg tr, mirror cwd cfg.archive root q.path = some d →
      ∀ x : String, getNode s.world.fs (key cwd q.path) = some (Node.file x) → x = data)
    (h4 : ∀ p ∈ passing (specHandlers cwd) cfg tr, ∀ q ∈ passing (specHandlers cwd) cfg tr,
      mirror cwd cfg.archive root p.path ≠ some (key cwd q.path)) :
    getNode s1.world.fs d = some (Node.file data) := by
  induction tr generalizing s with
  | nil =>
    simp [Walk] at hrun
    subst hrun
    exact hd
  | cons e es ih =>
    obtain ⟨s2, hstep, hrest⟩ := Walk_cons_inv _ e es s s1 hrun
    cases he : e.err with
    | some err =>
      rw [he, walkFn_err] at hstep
      simp at hstep
    | none =>
      rw [he] at hstep
      cases hf : (specHandlers cwd).filterOut e.path cfg.ext cfg.size e.info with
      | true =>
        rw [walkFn_excluded (specHandlers cwd) root out cfg lg e.path e.info s hf] at hstep
        have hs2 : s2 = ⟨s.calls ++ [Call.filterOut e.path cfg.ext cfg.size e.info],
            s.world⟩ := (congrArg Prod.snd hstep).symm
        have hp : passing (specHandlers cwd) cfg (e :: es)
            = passing (specHandlers cwd) cfg es := by
          simp [passing, hf]
        rw [hp] at h2 h3 h4
        exact ih s2 hrest (by rw [hs2]; exact hd) h2 (by rw [hs2]; exact h3) h4
      | false =>
        have hp : passing (specHandlers cwd) cfg (e :: es)
            = e :: passing (specHandlers cwd) cfg es := by
          simp [passing, hf, he]
        rw [hp] at h2 h3 h4
        obtain ⟨t, data1, hm, _, hnew, hcopy, hkeep⟩ :=
          archive_mode_step cwd root out cfg lg hl ha e s s2 hf hstep
        have hself : key cwd e.path ≠ t := by
          intro h
          exact h4 e (List.mem_cons_self e _) e (List.mem_cons_self e _) (by rw [hm, h])
        obtain ⟨hsrc, hdst⟩ := hcopy hself
        have hd2 : getNode s2.world.fs d = some (Node.file data) := by
          by_cases htd : t = d
          · have : data1 = data := h3 e (List.mem_cons_self e _) (by rw [hm, htd]) data1 hsrc
            rw [← htd, hdst, this]
          · exact hkeep d data hd (fun h => htd h.symm)
              (fun _ h => h2 e (List.mem_cons_self e _) h.symm)
        refine ih s2 hrest hd2 (fun q hq => h2 q (List.mem_cons_of_mem e hq)) ?_
          (fun p hp1 q hq => h4 p (List.mem_cons_of_mem e hp1) q (List.mem_cons_of_mem e hq))
        intro q hq hmq x hx
        rcases hnew _ x hx with h | h
        · exact absurd (by rw [hm, h]) (h4 e (List.mem_cons_self e _) q
            (List.mem_cons_of_mem e hq))
        · exact h3 q (List.mem_cons_of_mem e hq) hmq x h

/-- A successful run with `list` off and an archive destination, when no copy
goes to the place of an entry that passes the filter: every such entry has
its contents of before the run at its mirrored place after the run. -/
theorem Walk_archive_copies (cwd : Key) (root : String) (out : Writer) (cfg : config)
    (lg : Logger) (hl : cfg.list = false) (ha : cfg.archive ≠ "")
    (tr : List Entry) (s s1 : St World)
    (hrun : Walk (walkFn (specHandlers cwd) root out cfg lg) tr s = (none, s1))
    (h4 : ∀ p ∈ passing (specHandlers cwd) cfg tr, ∀ q ∈ passing (specHandlers cwd) cfg tr,
      mirror cwd cfg.archive root p.path ≠ some (key cwd q.path)) :
    ∀ e ∈ passing (specHandlers cwd) cfg tr, ∃ (d : Key) (data : String),
      mirror cwd cfg.archive root e.path = some d
        ∧ getNode s.world.fs (key cwd e.path) = some (Node.file data)
        ∧ getNode s1.world.fs d = some (Node.file data) := by
  induction tr generalizing s with
  | nil => intro e he; simp [passing] at he
  | cons e es ih =>
    obtain ⟨s2, hstep, hrest⟩ := Walk_cons_inv _ e es s s1 hrun
    cases he : e.err with
    | some err =>
      rw [he, walkFn_err] at hstep
      simp at hstep
    | none =>
      rw [he] at hstep
      cases hf : (specHandlers cwd).filterOut e.path cfg.ext cfg.size e.info with
      | true =>
        rw [walkFn_excluded (specHandlers cwd) root out cfg lg e.path e.info s hf] at hstep
        have hs2 : s2 = ⟨s.calls ++ [Call.filterOut e.path cfg.ext cfg.size e.info],
            s.world⟩ := (congrArg Prod.snd hstep).symm
        have hp : passing (specHandlers cwd) cfg (e :: es)
            = passing (specHandlers cwd) cfg es := by
          simp [passing, hf]
        rw [hp] at h4 ⊢
        have := ih s2 hrest h4
        rw [hs2] at this
        exact this
      | false =>
        have hp : passing (specHandlers cwd) cfg (e :: es)
            = e :: passing (specHandlers cwd) cfg es := by
          simp [passing, hf, he]
        rw [hp] at h4 ⊢
        obtain ⟨t, data1, hm, _, hnew, hcopy, _⟩ :=
          archive_mode_step cwd root out cfg lg hl ha e s s2 hf hstep
        have hself : key cwd e.path ≠ t := by
          intro h
          exact h4 e (List.mem_cons_self e _) e (List.mem_cons_self e _) (by rw [hm, h])
        obtain ⟨hsrc, hdst⟩ := hcopy hself
        have h4es : ∀ p ∈ passing (specHandlers cwd) cfg es,
            ∀ q ∈ passing (specHandlers cwd) cfg es,
            mirror cwd cfg.archive root p.path ≠ some (key cwd q.path) :=
          fun p hp1 q hq => h4 p (List.mem_cons_of_mem e hp1) q (List.mem_cons_of_mem e hq)
        intro e1 he1
        rcases List.mem_cons.mp he1 with h | h
        · subst h
          refine ⟨t, data1, hm, hsrc, ?_⟩
          refine Walk_archive_keeps cwd root out cfg lg hl ha t data1 es s2 s1 hrest hdst
            ?_ ?_ h4es
          · intro q hq hk
            exact h4 e1 (List.mem_cons_self e1 _) q (List.mem_cons_of_mem e1 hq) (by rw [hm, hk])
          · intro q hq hmq x hx
            rcases hnew _ x hx with h | h
            · exact absurd (by rw [hm, h]) (h4 e1 (List.mem_cons_self e1 _) q
                (List.mem_cons_of_mem e1 hq))
            · have hk : key cwd q.path = key cwd e1.path :=
                mirror_inj cwd cfg.archive root q.path e1.path t hmq hm
              rw [hk, hsrc] at h
              simp at h
              exact h.symm
        · obtain ⟨d, data, hmd, hsrc1, hdst1⟩ := ih s2 hrest h4es e1 h
          refine ⟨d, data, hmd, ?_, hdst1⟩
          rcases hnew _ data hsrc1 with h0 | h0
          · exact absurd (by rw [hm, h0]) (h4 e (List.mem_cons_self e _) e1
              (List.mem_cons_of_mem e h))
          · exact h0

/-- A successful run with `list` off and an archive destination: the Archive
calls it records and the files it can have added. -/
theorem Walk_archive_spec (cwd : Key) (root : String) (out : Writer) (cfg : config)
    (lg : Logger) (hl : cfg.list = false) (ha : cfg.archive ≠ "")
    (tr : List Entry) (s s1 : St World)
    (hrun : Walk (walkFn (specHandlers cwd) root out cfg lg) tr s = (none, s1)) :
    s1.calls.filter Call.isArchive = s.calls.filter Call.isArchive
        ++ (passing (specHandlers cwd) cfg tr).map
            (fun e => Call.archiveFile cfg.archive root e.path)
      ∧ (∀ (d : Key) (x : String), getNode s1.world.fs d = some (Node.file x) →
          getNode s.world.fs d = some (Node.file x) ∨
            ∃ e ∈ passing (specHandlers cwd) cfg tr,
              mirror cwd cfg.archive root e.path = some d) := by
  induction tr generalizing s with
  | nil =>
    simp [Walk] at hrun
    subst hrun
    simp [passing]
  | cons e es ih =>
    obtain ⟨s2, hstep, hrest⟩ := Walk_cons_inv _ e es s s1 hrun
    cases he : e.err with
    | some err =>
      rw [he, walkFn_err] at hstep
      simp at hstep
    | none =>
      rw [he] at hstep
      obtain ⟨icalls, inew⟩ := ih s2 hrest
      cases hf : (specHandlers cwd).filterOut e.path cfg.ext cfg.size e.info with
      | true =>
        rw [walkFn_excluded (specHandlers cwd) root out cfg lg e.path e.info s hf] at hstep
        have hs2 : s2 = ⟨s.calls ++ [Call.filterOut e.path cfg.ext cfg.size e.info],
            s.world⟩ := (congrArg Prod.snd hstep).symm
        have hp : passing (specHandlers cwd) cfg (e :: es)
            = passing (specHandlers cwd) cfg es := by
          simp [passing, hf]
        rw [hp]
        rw [hs2] at icalls inew
        refine ⟨?_, inew⟩
        simpa [List.filter_append, Call.isArchive] using icalls
      | false =>
        have hp : passing (specHandlers cwd) cfg (e :: es)
            = e :: passing (specHandlers cwd) cfg es := by
          simp [passing, hf, he]
        rw [hp]
        obtain ⟨t, data1, hm, hcalls, hnew, _, _⟩ :=
          archive_mode_step cwd root out cfg lg hl ha e s s2 hf hstep
        refine ⟨?_, ?_⟩
        · rw [icalls, hcalls]
          simp
        · intro d x hd
          rcases inew d x hd with h | ⟨e1, he1, hm1⟩
          · rcases hnew d x h with h0 | h0
            · exact Or.inr ⟨e, List.mem_cons_self e _, by rw [h0]; exact hm⟩
            · exact Or.inl h0
          · exact Or.inr ⟨e1, List.mem_cons_of_mem e he1, hm1⟩

/-! ## `WalkFS` is `Walk` over the entries it presents -/

theorem Walk_single {τ : Type} (fn : String → FileInfo → Option Error → τ → Option Error × τ)
    (e : Entry) (s : τ) : Walk fn [e] s = fn e.path e.info e.err s := by
  rcases h : fn e.path e.info e.err s with ⟨r, s1⟩
  cases r with
  | none => rw [Walk_cons_ok fn e [] s s1 h]; rfl
  | some err => rw [Walk_cons_err fn e [] s s1 err h]

theorem walkNames_is_Walk (cwd : Key)
    (walkRec : String → FileInfo → St World → Option (Option Error × St World × List Entry))
    (fn : String → FileInfo → Option Error → St World → Option Error × St World)
    (dir : String)
    (hrec : ∀ (p : String) (i : FileInfo) (s : St World) (r : Option Error) (s1 : St World)
      (tr : List Entry), walkRec p i s = some (r, s1, tr) → Walk fn tr s = (r, s1))
    (names : List String) (s : St World) (r : Option Error) (s1 : St World) (tr : List Entry)
    (h : walkNames cwd walkRec fn dir names s = some (r, s1, tr)) :
    Walk fn tr s = (r, s1) := by
  induction names generalizing s r s1 tr with
  | nil =>
    simp [walkNames] at h
    obtain ⟨h1, h2, h3⟩ := h
    subst h1 h2 h3
    rfl
  | cons name rest ih =>
    simp only [walkNames] at h
    split at h
    · rename_i e he
      split at h
      · rename_i err s2 hfn
        simp at h
        obtain ⟨h1, h2, h3⟩ := h
        subst h1 h2 h3
        exact Walk_cons_err fn ⟨Join dir name, noInfo, some e⟩ [] s s2 err hfn
      · rename_i s2 hfn
        split at h
        · simp at h
        · rename_i r2 s3 tr2 hw
          simp at h
          obtain ⟨h1, h2, h3⟩ := h
          subst h1 h2 h3
          rw [Walk_cons_ok fn ⟨Join dir name, noInfo, some e⟩ tr2 s s2 hfn]
          exact ih s2 r2 s3 tr2 hw
    · rename_i info hst
      split at h
      · simp at h
      · rename_i err s2 tr1 hw
        simp at h
        obtain ⟨h1, h2, h3⟩ := h
        subst h1 h2 h3
        exact hrec _ _ _ _ _ _ hw
      · rename_i s2 tr1 hw
        split at h
        · simp at h
        · rename_i r2 s3 tr2 hw2
          simp at h
          obtain ⟨h1, h2, h3⟩ := h
          subst h1 h2 h3
          rw [Walk_append_ok fn tr1 tr2 s s2 (hrec _ _ _ _ _ _ hw)]
          exact ih s2 r2 s3 tr2 hw2

theorem walk_is_Walk (cwd : Key)
    (fn : String → FileInfo → Option Error → St World → Option Error × St World)
    (fuel : Nat) (path : String) (info : FileInfo) (s : St World) (r : Option Error)
    (s1 : St World) (tr : List Entry)
    (h : walk cwd fn fuel path info s = some (r, s1, tr)) :
    Walk fn tr s = (r, s1) := by
  induction fuel generalizing path info s r s1 tr with
  | zero => simp [walk] at h
  | succ fuel ih =>
    simp only [walk] at h
    split at h
    · simp at h
      obtain ⟨h1, h2, h3⟩ := h
      subst h1 h2 h3
      exact Walk_single fn ⟨path, info, none⟩ s
    · split at h
      · rename_i e he
        simp at h
        obtain ⟨h1, h2, h3⟩ := h
        subst h1 h2 h3
        exact Walk_single fn ⟨path, info, some e⟩ s
      · rename_i names hn
        split at h
        · rename_i err s2 hfn
          simp at h
          obtain ⟨h1, h2, h3⟩ := h
          subst h1 h2 h3
          exact Walk_cons_err fn ⟨path, info, none⟩ [] s s2 err hfn
        · rename_i s2 hfn
          split at h
          · simp at h
          · rename_i r2 s3 tr2 hw
            simp at h
            obtain ⟨h1, h2, h3⟩ := h
            subst h1 h2 h3
            rw [Walk_cons_ok fn ⟨path, info, none⟩ tr2 s s2 hfn]
            exact walkNames_is_Walk cwd _ fn path
              (fun p i t r1 t1 tr1 hh => ih p i t r1 t1 tr1 hh) names s2 r2 s3 tr2 hw

/-- A walk of the file system is the callback folded over the entries it
presents: whatever holds of `Walk` for every traversal holds of it. -/
theorem WalkFS_is_Walk (cwd : Key) (fuel : Nat)
    (fn : String → FileInfo → Option Error → St World → Option Error × St World)
    (root : String) (s : St World) (r : Option Error) (s1 : St World) (tr : List Entry)
    (h : WalkFS cwd fuel fn root s = some (r, s1, tr)) :
    Walk fn tr s = (r, s1) := by
  unfold WalkFS at h
  split at h
  · simp at h
    obtain ⟨h1, h2, h3⟩ := h
    subst h1 h2 h3
    exact Walk_single fn ⟨root, noInfo, _⟩ s
  · exact walk_is_Walk cwd fn fuel root _ s r s1 tr h

/-- A run on the file system is `run` on the traversal it presents. -/
theorem runFS_is_run (cwd : Key) (fuel : Nat) (root : String) (out : Writer) (cfg : config)
    (s : St World) (r : Option Error) (s1 : St World) (tr : List Entry)
    (h : runFS cwd fuel root out cfg s = some (r, s1, tr)) :
    run (specHandlers cwd) root out cfg tr s = (r, s1) :=
  WalkFS_is_Walk cwd fuel _ root s r s1 tr h

/-! ## The tests of the repository and the resolution of paths -/

/-- The handlers of the specification give the five outputs `TestRun`
(main_test.go, lines 20-24) expects of `run` on `testdata`, the traversal
being the one `filepath.Walk` makes of the file system. -/
theorem TestRun_cases :
    (runFS workDir 4 "testdata" outBuf
        { ext := "", size := 0, list := true, del := false, wLog := logBuf, archive := "" }
        (startOf [] testdataFiles)).map (fun r => (r.1, text (r.2.1.world.sink outBuf)))
        = some (none, "testdata/dir.log\ntestdata/dir2/script.sh\n")
      ∧ (runFS workDir 4 "testdata" outBuf
          { ext := ".log", size := 0, list := true, del := false, wLog := logBuf, archive := "" }
          (startOf [] testdataFiles)).map (fun r => (r.1, text (r.2.1.world.sink outBuf)))
          = some (none, "testdata/dir.log\n")
      ∧ (runFS workDir 4 "testdata" outBuf
          { ext := ".gz", size := 0, list := true, del := false, wLog := logBuf, archive := "" }
          (startOf [] testdataFiles)).map (fun r => (r.1, text (r.2.1.world.sink outBuf)))
          = some (none, "")
      ∧ (runFS workDir 4 "testdata" outBuf
          { ext := ".log", size := 10, list := true, del := false, wLog := logBuf, archive := "" }
          (startOf [] testdataFiles)).map (fun r => (r.1, text (r.2.1.world.sink outBuf)))
          = some (none, "testdata/dir.log\n")
      ∧ (runFS workDir 4 "testdata" outBuf
          { ext := ".log", size := 20, list := true, del := false, wLog := logBuf, archive := "" }
          (startOf [] testdataFiles)).map (fun r => (r.1, text (r.2.1.world.sink outBuf)))
          = some (none, "") := by
  refine ⟨by decide, by decide, by decide, by decide, by decide⟩

/-- The traversal `filepath.Walk` makes of `testdata` is `testdataWalk`. -/
theorem testdataWalk_is_walked :
    (runFS workDir 4 "testdata" outBuf cfgList (startOf [] testdataFiles)).map
        (fun r => r.2.2) = some testdataWalk := by
  decide

/-- Spellings of one place are one place, and a path under the root has a
relative path whatever the spelling of the root. -/
theorem paths_resolve :
    key workDir "testdata//dir.log" = key workDir "testdata/dir.log"
      ∧ key workDir "./testdata/dir2/../dir.log" = key workDir "/work/testdata/dir.log"
      ∧ relSegs workDir "/" "/etc/hosts" = some ["etc", "hosts"]
      ∧ relSegs workDir "testdata/" "testdata/dir.log" = some ["dir.log"]
      ∧ relSegs workDir "./testdata" "testdata/dir.log" = some ["dir.log"]
      ∧ relSegs workDir "." "a/x.log" = some ["a", "x.log"]
      ∧ relSegs workDir "testdata" "elsewhere/x.log" = none
      ∧ mirror workDir "backup/" "testdata/" "testdata/dir2/script.sh"
          = some ["work", "backup", "dir2", "script.sh"] := by
  refine ⟨by decide, by decide, by decide, by decide, by decide, by decide, by decide,
    by decide⟩

/-! ## The claims -/

/-- C1: for an entry the filter excludes, the callback returns nil having only
evaluated the filter: the state the handlers act on (primary output, audit
log, file system) is the one before the entry, and none of List, Archive and
Delete is invoked. Over a whole run, every handler call is on the path of an
entry that passes the filter, so no file failing the filter is listed,
archived or removed. -/
theorem excluded_entry_no_action {σ : Type} (H : Handlers σ) (root : String) (out : Writer)
    (cfg : config) (path : String) (info : FileInfo) (s : St σ) (tr : List Entry) (s0 : St σ)
    (h : H.filterOut path cfg.ext cfg.size info = true) :
    walkFn H root out cfg (delLoggerOf cfg) path info none s
        = (none, ⟨s.calls ++ [Call.filterOut path cfg.ext cfg.size info], s.world⟩)
      ∧ (∃ new : List Call, (run H root out cfg tr s0).2.calls = s0.calls ++ new ∧
          ∀ c ∈ new, c.isFilter = true ∨ ∃ e ∈ passing H cfg tr, c.path = e.path) :=
  ⟨walkFn_excluded H root out cfg (delLoggerOf cfg) path info s h,
   Walk_calls H root out cfg (logNew cfg.wLog "DELETED FILE: " LstdFlags) tr s0⟩

/-- Witness of C1: `dir2/script.sh` under the filter `.log`. -/
theorem excluded_entry_no_action_witness :
    (specHandlers workDir).filterOut "testdata/dir2/script.sh" cfgListDel.ext cfgListDel.size
        ⟨"script.sh", 9, false⟩ = true
      ∧ walkFn (specHandlers workDir) "testdata" outBuf cfgListDel (delLoggerOf cfgListDel)
          "testdata/dir2/script.sh" ⟨"script.sh", 9, false⟩ none (startOf [] testdataFiles)
        = (none, ⟨(startOf [] testdataFiles).calls ++
            [Call.filterOut "testdata/dir2/script.sh" cfgListDel.ext cfgListDel.size
              ⟨"script.sh", 9, false⟩], (startOf [] testdataFiles).world⟩) :=
  ⟨by decide,
   (excluded_entry_no_action (specHandlers workDir) "testdata" outBuf cfgListDel
      "testdata/dir2/script.sh" ⟨"script.sh", 9, false⟩ (startOf [] testdataFiles) testdataWalk
      (startOf [] testdataFiles) (by decide)).1⟩

/-- C2 as stated fails: with `list` and `del` both set, the run over `testdata`
calls the filter and List only, writes the path to the primary output, leaves
the file in place and logs nothing. -/
theorem list_and_del_lists_only :
    (run (specHandlers workDir) "testdata" outBuf cfgListDel testdataWalk
        (startOf [] testdataFiles)).2.calls
        = [ Call.filterOut "testdata" ".log" 0 ⟨"testdata", 4096, true⟩,
            Call.filterOut "testdata/dir.log" ".log" 0 ⟨"dir.log", 11, false⟩,
            Call.listFile "testdata/dir.log" outBuf,
            Call.filterOut "testdata/dir2" ".log" 0 ⟨"dir2", 4096, true⟩,
            Call.filterOut "testdata/dir2/script.sh" ".log" 0 ⟨"script.sh", 9, false⟩ ]
      ∧ (run (specHandlers workDir) "testdata" outBuf cfgListDel testdataWalk
          (startOf [] testdataFiles)).2.world.sink outBuf = ["testdata/dir.log\n"]
      ∧ getNode (run (specHandlers workDir) "testdata" outBuf cfgListDel testdataWalk
          (startOf [] testdataFiles)).2.world.fs (key workDir "testdata/dir.log")
          = some (Node.file "hello world")
      ∧ (run (specHandlers workDir) "testdata" outBuf cfgListDel testdataWalk
          (startOf [] testdataFiles)).2.world.sink logBuf = [] := by
  refine ⟨by decide, by decide, by decide, by decide⟩

/-- C2, amended: with `del` set and an entry that passes the filter, when
`list` is not set the callback invokes Archive first if a destination is
configured, stops there if Archive fails, and otherwise invokes Delete next;
List is not invoked. When `list` is set as well, the callback invokes List
only. -/
theorem delete_precedence {σ : Type} (H : Handlers σ) (root : String) (out : Writer)
    (cfg : config) (path : String) (info : FileInfo) (s : St σ)
    (hd : cfg.del = true) (h : H.filterOut path cfg.ext cfg.size info = false) :
    (cfg.list = false → cfg.archive = "" →
        walkFn H root out cfg (delLoggerOf cfg) path info none s
          = ((H.delFile path (delLoggerOf cfg) s.world).1,
             ⟨s.calls ++ [Call.filterOut path cfg.ext cfg.size info,
                Call.delFile path (delLoggerOf cfg)],
              (H.delFile path (delLoggerOf cfg) s.world).2⟩))
      ∧ (cfg.list = false → cfg.archive ≠ "" → ∀ w1 : σ,
          H.archiveFile cfg.archive root path s.world = (none, w1) →
          walkFn H root out cfg (delLoggerOf cfg) path info none s
            = ((H.delFile path (delLoggerOf cfg) w1).1,
               ⟨s.calls ++ [Call.filterOut path cfg.ext cfg.size info,
                  Call.archiveFile cfg.archive root path, Call.delFile path (delLoggerOf cfg)],
                (H.delFile path (delLoggerOf cfg) w1).2⟩))
      ∧ (cfg.list = false → cfg.archive ≠ "" → ∀ (e : Error) (w1 : σ),
          H.archiveFile cfg.archive root path s.world = (some e, w1) →
          walkFn H root out cfg (delLoggerOf cfg) path info none s
            = (some e,
               ⟨s.calls ++ [Call.filterOut path cfg.ext cfg.size info,
                  Call.archiveFile cfg.archive root path], w1⟩))
      ∧ (cfg.list = true →
          walkFn H root out cfg (delLoggerOf cfg) path info none s
            = ((H.listFile path out s.world).1,
               ⟨s.calls ++ [Call.filterOut path cfg.ext cfg.size info, Call.listFile path out],
                (H.listFile path out s.world).2⟩)) :=
  ⟨fun hl ha => walkFn_noarchive_del H root out cfg (delLoggerOf cfg) path info s h hl ha hd,
   fun hl ha w1 hr =>
     walkFn_archive_del H root out cfg (delLoggerOf cfg) path info s w1 h hl ha hd hr,
   fun hl ha e w1 hr =>
     walkFn_archive_fail H root out cfg (delLoggerOf cfg) path info s e w1 h hl ha hr,
   fun hl => walkFn_list H root out cfg (delLoggerOf cfg) path info s h hl⟩

/-- Witness of C2 (amended): `dir.log` under `-archive backup -del`. -/
theorem delete_precedence_witness :
    cfgArchiveDel.del = true
      ∧ (specHandlers workDir).filterOut "testdata/dir.log" cfgArchiveDel.ext
          cfgArchiveDel.size ⟨"dir.log", 11, false⟩ = false
      ∧ (walkFn (specHandlers workDir) "testdata" outBuf cfgArchiveDel
          (delLoggerOf cfgArchiveDel) "testdata/dir.log"
          ⟨"dir.log", 11, false⟩ none (startOf [] testdataFiles)).2.calls
        = [ Call.filterOut "testdata/dir.log" ".log" 0 ⟨"dir.log", 11, false⟩,
            Call.archiveFile "backup" "testdata" "testdata/dir.log",
            Call.delFile "testdata/dir.log" (delLoggerOf cfgArchiveDel) ] := by
  refine ⟨by decide, by decide, ?_⟩
  rw [(delete_precedence (specHandlers workDir) "testdata" outBuf cfgArchiveDel
    "testdata/dir.log" ⟨"dir.log", 11, false⟩ (startOf [] testdataFiles)
    (by decide) (by decide)).2.1
    (by decide) (by decide)
    (archiveFile workDir "backup" "testdata" "testdata/dir.log"
      (startOf [] testdataFiles).world).2
    (Prod.ext (by decide) rfl)]
  rfl

/-- C3: with `list` off, an archive destination and `del` on, for an entry that
passes the filter: when Archive fails with `e` the callback returns `e` having
called the filter and Archive only, so Delete is not invoked; when Archive
succeeds the callback invokes Delete next, on the same path, in the state
Archive left. -/
theorem archive_failure_blocks_delete {σ : Type} (H : Handlers σ) (root : String)
    (out : Writer) (cfg : config) (path : String) (info : FileInfo) (s : St σ)
    (hl : cfg.list = false) (ha : cfg.archive ≠ "") (hd : cfg.del = true)
    (h : H.filterOut path cfg.ext cfg.size info = false) :
    (∀ (e : Error) (w1 : σ), H.archiveFile cfg.archive root path s.world = (some e, w1) →
        walkFn H root out cfg (delLoggerOf cfg) path info none s
          = (some e,
             ⟨s.calls ++ [Call.filterOut path cfg.ext cfg.size info,
                Call.archiveFile cfg.archive root path], w1⟩))
      ∧ (∀ w1 : σ, H.archiveFile cfg.archive root path s.world = (none, w1) →
          walkFn H root out cfg (delLoggerOf cfg) path info none s
            = ((H.delFile path (delLoggerOf cfg) w1).1,
               ⟨s.calls ++ [Call.filterOut path cfg.ext cfg.size info,
                  Call.archiveFile cfg.archive root path, Call.delFile path (delLoggerOf cfg)],
                (H.delFile path (delLoggerOf cfg) w1).2⟩)) :=
  ⟨fun e w1 hr =>
     walkFn_archive_fail H root out cfg (delLoggerOf cfg) path info s e w1 h hl ha hr,
   fun w1 hr =>
     walkFn_archive_del H root out cfg (delLoggerOf cfg) path info s w1 h hl ha hd hr⟩

/-- Witness of C3: `-archive backup -del` on `testdata/dir.log` when the
directory `backup` cannot be made: Archive fails, Delete is not called and the
file is still there. -/
theorem archive_failure_blocks_delete_witness :
    cfgArchiveDel.list = false ∧ cfgArchiveDel.archive ≠ "" ∧ cfgArchiveDel.del = true
      ∧ (specHandlers workDir).filterOut "testdata/dir.log" cfgArchiveDel.ext
          cfgArchiveDel.size ⟨"dir.log", 11, false⟩ = false
      ∧ (walkFn (specHandlers workDir) "testdata" outBuf cfgArchiveDel
          (delLoggerOf cfgArchiveDel) "testdata/dir.log" ⟨"dir.log", 11, false⟩ none
          readOnlyStart).1
        = some ⟨"mkdir backup: permission denied"⟩
      ∧ (walkFn (specHandlers workDir) "testdata" outBuf cfgArchiveDel
          (delLoggerOf cfgArchiveDel) "testdata/dir.log" ⟨"dir.log", 11, false⟩ none
          readOnlyStart).2.calls
        = [ Call.filterOut "testdata/dir.log" ".log" 0 ⟨"dir.log", 11, false⟩,
            Call.archiveFile "backup" "testdata" "testdata/dir.log" ]
      ∧ getNode (walkFn (specHandlers workDir) "testdata" outBuf cfgArchiveDel
          (delLoggerOf cfgArchiveDel) "testdata/dir.log" ⟨"dir.log", 11, false⟩ none
          readOnlyStart).2.world.fs (key workDir "testdata/dir.log")
        = some (Node.file "hello world") := by
  have key := (archive_failure_blocks_delete (specHandlers workDir) "testdata" outBuf
    cfgArchiveDel "testdata/dir.log" ⟨"dir.log", 11, false⟩ readOnlyStart
    (by decide) (by decide) (by decide) (by decide)).1
    ⟨"mkdir backup: permission denied"⟩ readOnlyStart.world (Prod.ext (by decide) rfl)
  refine ⟨by decide, by decide, by decide, by decide, ?_, ?_, ?_⟩
  · rw [key]
  · rw [key]; rfl
  · rw [key]; decide

/-- C8: when the traversal reports an error `e` for an entry, the callback
returns `e` with the state untouched: the filter is not evaluated and no
handler is invoked. A run that reaches such an entry ends with `e` in the
state the earlier entries left, whatever entries follow. -/
theorem traversal_error_aborts {σ : Type} (H : Handlers σ) (root : String) (out : Writer)
    (cfg : config) (path : String) (info : FileInfo) (e : Error) (pre post : List Entry)
    (s s1 : St σ) (hpre : run H root out cfg pre s = (none, s1)) :
    walkFn H root out cfg (delLoggerOf cfg) path info (some e) s1 = (some e, s1)
      ∧ run H root out cfg (pre ++ ⟨path, info, some e⟩ :: post) s = (some e, s1) := by
  refine ⟨rfl, ?_⟩
  unfold run at hpre ⊢
  simp only at hpre ⊢
  rw [Walk_append_ok _ pre _ s s1 hpre]
  exact Walk_cons_err _ _ post s1 s1 e rfl

/-- Witness of C8: with `-archive backup -del` on `.log` files, `dir.log` is
archived and deleted, then `dir2` cannot be read: the run ends with that
error, `dir.log` stays deleted and `script.sh` is never looked at. -/
theorem traversal_error_aborts_witness :
    (run (specHandlers workDir) "testdata" outBuf cfgArchiveDel (brokenWalk.take 2)
        (startOf [] testdataFiles)).1 = none
      ∧ (run (specHandlers workDir) "testdata" outBuf cfgArchiveDel brokenWalk
          (startOf [] testdataFiles)).1
        = some ⟨"open testdata/dir2: permission denied"⟩
      ∧ (run (specHandlers workDir) "testdata" outBuf cfgArchiveDel brokenWalk
          (startOf [] testdataFiles)).2.calls
        = [ Call.filterOut "testdata" ".log" 0 ⟨"testdata", 4096, true⟩,
            Call.filterOut "testdata/dir.log" ".log" 0 ⟨"dir.log", 11, false⟩,
            Call.archiveFile "backup" "testdata" "testdata/dir.log",
            Call.delFile "testdata/dir.log" (delLoggerOf cfgArchiveDel) ]
      ∧ getNode (run (specHandlers workDir) "testdata" outBuf cfgArchiveDel brokenWalk
          (startOf [] testdataFiles)).2.world.fs (key workDir "testdata/dir.log") = none := by
  have key := (traversal_error_aborts (specHandlers workDir) "testdata" outBuf cfgArchiveDel
    "testdata/dir2" ⟨"", 0, false⟩ ⟨"open testdata/dir2: permission denied"⟩
    (brokenWalk.take 2)
    [⟨"testdata/dir2/script.sh", ⟨"script.sh", 9, false⟩, none⟩] (startOf [] testdataFiles)
    (run (specHandlers workDir) "testdata" outBuf cfgArchiveDel (brokenWalk.take 2)
      (startOf [] testdataFiles)).2
    (Prod.ext (by decide) rfl)).2
  have hb : brokenWalk = brokenWalk.take 2 ++
      ⟨"testdata/dir2", ⟨"", 0, false⟩, some ⟨"open testdata/dir2: permission denied"⟩⟩ ::
      [⟨"testdata/dir2/script.sh", ⟨"script.sh", 9, false⟩, none⟩] := by decide
  rw [hb, key]
  refine ⟨by decide, rfl, by decide, by decide⟩


/-- C4: a listing run over a traversal without traversal errors, on a writer
whose writes succeed, returns nil; the primary output grows by exactly the
paths of the entries the filter does not exclude, each followed by a newline,
in traversal order; every other writer, the file system and the clock are as
before; neither Archive nor Delete is invoked. (Holds for every configuration
with `list` set, so in particular when `del` is off and no archive
destination is given.) -/
theorem list_run_output (cwd : Key) (root : String) (out : Writer) (cfg : config)
    (tr : List Entry) (s : St World)
    (hl : cfg.list = true) (herr : ∀ e ∈ tr, e.err = none)
    (hw : ∀ n : Nat, s.world.fault (SysCall.write out n) = none) :
    (run (specHandlers cwd) root out cfg tr s).1 = none
      ∧ (run (specHandlers cwd) root out cfg tr s).2.world.sink out
          = s.world.sink out
              ++ (passing (specHandlers cwd) cfg tr).map (fun e => e.path ++ "\n")
      ∧ text ((run (specHandlers cwd) root out cfg tr s).2.world.sink out)
          = text (s.world.sink out) ++ listing (passing (specHandlers cwd) cfg tr)
      ∧ (∀ x : Writer, x ≠ out →
          (run (specHandlers cwd) root out cfg tr s).2.world.sink x = s.world.sink x)
      ∧ (run (specHandlers cwd) root out cfg tr s).2.world.fs = s.world.fs
      ∧ (run (specHandlers cwd) root out cfg tr s).2.world.time = s.world.time
      ∧ (∃ new : List Call, (run (specHandlers cwd) root out cfg tr s).2.calls = s.calls ++ new ∧
          ∀ c ∈ new, c.isArchive = false ∧ c.isDel = false) := by
  have key := Walk_list_spec cwd root out cfg (logNew cfg.wLog "DELETED FILE: " LstdFlags)
    hl tr herr s hw
  have hsink : (run (specHandlers cwd) root out cfg tr s).2.world.sink out
      = s.world.sink out
          ++ (passing (specHandlers cwd) cfg tr).map (fun e => e.path ++ "\n") := by
    unfold run; simp only; rw [key.2]; simp
  refine ⟨key.1, hsink, ?_, ?_, ?_, ?_, ?_⟩
  · rw [hsink, text_append, text_lines]
  · intro x hx
    unfold run; simp only; rw [key.2]; simp [hx]
  · unfold run; simp only; rw [key.2]
  · unfold run; simp only; rw [key.2]
  · exact Walk_new_calls _ _ tr
      (fun e _ s1 => walkFn_list_calls (specHandlers cwd) root out cfg _ e.path e.info e.err
        s1 hl) s

/-- Witness of C4: the first case of `TestRun`, root `testdata`, no filter. -/
theorem list_run_output_witness :
    cfgList.list = true ∧ (∀ e ∈ testdataWalk, e.err = none)
      ∧ (run (specHandlers workDir) "testdata" outBuf cfgList testdataWalk
          (startOf [] testdataFiles)).1 = none
      ∧ text ((run (specHandlers workDir) "testdata" outBuf cfgList testdataWalk
          (startOf [] testdataFiles)).2.world.sink outBuf)
          = "testdata/dir.log\ntestdata/dir2/script.sh\n" := by
  have key := list_run_output workDir "testdata" outBuf cfgList testdataWalk
    (startOf [] testdataFiles) (by decide) (by decide) (fun _ => rfl)
  refine ⟨by decide, by decide, key.1, ?_⟩
  rw [key.2.2.1]
  decide

/-- C9: whatever the extension filter, the minimum size and the action flags,
the filter excludes a directory; the callback then returns nil (no error, so
nothing that makes the walk skip the directory) with only the filter
evaluation recorded, the walk goes on with the entries that follow, and every
handler call of a run is on the path of an entry that is not a directory. -/
theorem directory_never_acted_on (cwd : Key) (root : String) (out : Writer) (cfg : config)
    (path : String) (info : FileInfo) (s : St World) (tr tr0 : List Entry) (s0 : St World)
    (hdir : info.isDir = true) :
    (∀ (ext : String) (minSize : Int), filterOut path ext minSize info = true)
      ∧ walkFn (specHandlers cwd) root out cfg (delLoggerOf cfg) path info none s
          = (none, ⟨s.calls ++ [Call.filterOut path cfg.ext cfg.size info], s.world⟩)
      ∧ run (specHandlers cwd) root out cfg (⟨path, info, none⟩ :: tr) s
          = run (specHandlers cwd) root out cfg tr
              ⟨s.calls ++ [Call.filterOut path cfg.ext cfg.size info], s.world⟩
      ∧ (∃ new : List Call,
          (run (specHandlers cwd) root out cfg tr0 s0).2.calls = s0.calls ++ new ∧
          ∀ c ∈ new, c.isFilter = true ∨
            ∃ e ∈ tr0, e.info.isDir = false ∧ c.path = e.path) := by
  have hstep := walkFn_excluded (specHandlers cwd) root out cfg (delLoggerOf cfg) path info s
    (filterOut_dir path cfg.ext cfg.size info hdir)
  refine ⟨fun ext minSize => filterOut_dir path ext minSize info hdir, hstep, ?_, ?_⟩
  · exact Walk_cons_ok _ ⟨path, info, none⟩ tr s _ hstep
  · obtain ⟨new, hnew, hprop⟩ :=
      Walk_calls (specHandlers cwd) root out cfg (logNew cfg.wLog "DELETED FILE: " LstdFlags)
        tr0 s0
    refine ⟨new, hnew, ?_⟩
    intro c hc
    rcases hprop c hc with hf | ⟨e, he, hp⟩
    · exact Or.inl hf
    · simp only [passing, List.mem_filter, Bool.and_eq_true, Bool.not_eq_true'] at he
      exact Or.inr ⟨e, he.1, filterOut_false_file e.path cfg.ext cfg.size e.info he.2.2, hp⟩

/-- Witness of C9: the directory `testdata/dir2` under `-archive backup -del`. -/
theorem directory_never_acted_on_witness :
    (⟨"dir2", 4096, true⟩ : FileInfo).isDir = true
      ∧ walkFn (specHandlers workDir) "testdata" outBuf cfgArchiveDel
          (delLoggerOf cfgArchiveDel) "testdata/dir2"
          ⟨"dir2", 4096, true⟩ none (startOf [] testdataFiles)
        = (none, ⟨(startOf [] testdataFiles).calls ++
            [Call.filterOut "testdata/dir2" cfgArchiveDel.ext cfgArchiveDel.size
              ⟨"dir2", 4096, true⟩], (startOf [] testdataFiles).world⟩) :=
  ⟨rfl, (directory_never_acted_on workDir "testdata" outBuf cfgArchiveDel "testdata/dir2"
    ⟨"dir2", 4096, true⟩ (startOf [] testdataFiles) [] [] (startOf [] testdataFiles) rfl).2.1⟩

/-- C10: with `list` set, whatever `del` and the archive destination are, a run
records no call of Archive or Delete; whatever List leaves as it is (the file
system and the audit log, by its contract) is after the run as it was before;
and for an entry that passes the filter the callback does one thing, the call
of List on its path. -/
theorem list_flag_lists_only {σ α : Type} (H : Handlers σ) (root : String) (out : Writer)
    (cfg : config) (tr : List Entry) (s : St σ) (path : String) (info : FileInfo) (s1 : St σ)
    (obs : σ → α) (hl : cfg.list = true)
    (hobs : ∀ (p : String) (w : σ), obs (H.listFile p out w).2 = obs w)
    (h : H.filterOut path cfg.ext cfg.size info = false) :
    (∃ new : List Call, (run H root out cfg tr s).2.calls = s.calls ++ new ∧
        ∀ c ∈ new, c.isArchive = false ∧ c.isDel = false)
      ∧ obs (run H root out cfg tr s).2.world = obs s.world
      ∧ walkFn H root out cfg (delLoggerOf cfg) path info none s1
          = ((H.listFile path out s1.world).1,
             ⟨s1.calls ++ [Call.filterOut path cfg.ext cfg.size info, Call.listFile path out],
              (H.listFile path out s1.world).2⟩) := by
  refine ⟨?_, ?_, walkFn_list H root out cfg (delLoggerOf cfg) path info s1 h hl⟩
  · exact Walk_new_calls _ _ tr
      (fun e _ s2 => walkFn_list_calls H root out cfg _ e.path e.info e.err s2 hl) s
  · apply Walk_obs
    intro e _ s2
    rcases walkFn_list_world H root out cfg (logNew cfg.wLog "DELETED FILE: " LstdFlags)
      e.path e.info e.err s2 hl with hw | hw
    · rw [hw]
    · rw [hw, hobs]

/-- Witness of C10: all three flags on `testdata`; the file system and the
audit log (a buffer of its own) are those of the start. -/
theorem list_flag_lists_only_witness :
    cfgAll.list = true
      ∧ (∀ (p : String) (w : World),
          (((specHandlers workDir).listFile p outBuf w).2.fs,
            ((specHandlers workDir).listFile p outBuf w).2.sink logBuf) = (w.fs, w.sink logBuf))
      ∧ (specHandlers workDir).filterOut "testdata/dir.log" cfgAll.ext cfgAll.size
          ⟨"dir.log", 11, false⟩ = false
      ∧ ((run (specHandlers workDir) "testdata" outBuf cfgAll testdataWalk
            (startOf [] testdataFiles)).2.world.fs,
          (run (specHandlers workDir) "testdata" outBuf cfgAll testdataWalk
            (startOf [] testdataFiles)).2.world.sink logBuf)
        = ((startOf [] testdataFiles).world.fs, (startOf [] testdataFiles).world.sink logBuf) := by
  have hobs : ∀ (p : String) (w : World),
      (((specHandlers workDir).listFile p outBuf w).2.fs,
        ((specHandlers workDir).listFile p outBuf w).2.sink logBuf) = (w.fs, w.sink logBuf) :=
    fun p w => by
      have := listFile_frame p outBuf w
      exact Prod.ext this.1 (this.2.2.2.2 logBuf (by decide))
  exact ⟨by decide, hobs, by decide,
    (list_flag_lists_only (specHandlers workDir) "testdata" outBuf cfgAll testdataWalk
      (startOf [] testdataFiles) "testdata/dir.log" ⟨"dir.log", 11, false⟩
      (startOf [] testdataFiles) (fun w => (w.fs, w.sink logBuf)) (by decide) hobs
      (by decide)).2.1⟩


/-- C7 as stated fails on one tree: root `.` holds `a/x.log` and an empty
directory `b`. With `-ext .log -archive b` the walk enters `b` after the copy
`b/a/x.log` has been made, so the run lists the copy too (and archives it
again); the listing run with the same filter on the same tree lists
`a/x.log` only. Both runs return nil. -/
theorem archive_run_lists_its_copies :
    (runFS workDir 6 "." outBuf cfgArchiveInside insideStart).map
        (fun r => (r.1, text (r.2.1.world.sink outBuf), r.2.2.map Entry.path))
        = some (none, "a/x.log\nb/a/x.log\n",
            [".", "a", "a/x.log", "b", "b/a", "b/a/x.log"])
      ∧ (runFS workDir 6 "." outBuf (listOnly cfgArchiveInside) insideStart).map
          (fun r => (r.1, text (r.2.1.world.sink outBuf), r.2.2.map Entry.path))
          = some (none, "a/x.log\n", [".", "a", "a/x.log", "b"]) := by
  refine ⟨by decide, by decide⟩

/-- C7, amended: with `list` and `del` both off, for an entry that passes the
filter the callback invokes List on the path once: alone when no archive
destination is configured, after Archive when one is and Archive succeeds.
When such a run succeeds, the listing run with the same filter settings that
is presented with the same traversal succeeds too and ends with the same
primary output (given that a successful Archive does not touch the primary
output and that List acts on it alone). -/
theorem fallback_lists_after_archive {σ α : Type} (H : Handlers σ) (root : String)
    (out : Writer) (cfg : config) (path : String) (info : FileInfo) (s : St σ)
    (tr : List Entry) (s0 s1 : St σ) (po : σ → α)
    (hl : cfg.list = false) (hd : cfg.del = false)
    (h : H.filterOut path cfg.ext cfg.size info = false)
    (hA : ∀ (d r p : String) (w w1 : σ), H.archiveFile d r p w = (none, w1) → po w1 = po w)
    (hL : ∀ (p : String) (w1 w2 : σ), po w1 = po w2 →
      (H.listFile p out w1).1 = (H.listFile p out w2).1
        ∧ po (H.listFile p out w1).2 = po (H.listFile p out w2).2)
    (hrun : run H root out cfg tr s0 = (none, s1)) :
    (cfg.archive = "" →
        walkFn H root out cfg (delLoggerOf cfg) path info none s
          = ((H.listFile path out s.world).1,
             ⟨s.calls ++ [Call.filterOut path cfg.ext cfg.size info, Call.listFile path out],
              (H.listFile path out s.world).2⟩))
      ∧ (cfg.archive ≠ "" → ∀ w1 : σ,
          H.archiveFile cfg.archive root path s.world = (none, w1) →
          walkFn H root out cfg (delLoggerOf cfg) path info none s
            = ((H.listFile path out w1).1,
               ⟨s.calls ++ [Call.filterOut path cfg.ext cfg.size info,
                  Call.archiveFile cfg.archive root path, Call.listFile path out],
                (H.listFile path out w1).2⟩))
      ∧ (run H root out (listOnly cfg) tr s0).1 = none
      ∧ po (run H root out (listOnly cfg) tr s0).2.world = po s1.world := by
  obtain ⟨t1, ht1, hout⟩ := Walk_fallback_sim H root out cfg
    (logNew cfg.wLog "DELETED FILE: " LstdFlags) po hl hd hA hL tr s0 s0 s1 rfl hrun
  refine ⟨fun ha =>
      walkFn_noarchive_fallback H root out cfg (delLoggerOf cfg) path info s h hl ha hd,
    fun ha w1 hr =>
      walkFn_archive_fallback H root out cfg (delLoggerOf cfg) path info s w1 h hl ha hd hr,
    ?_, ?_⟩
  · unfold run; simp only
    have : logNew (listOnly cfg).wLog "DELETED FILE: " LstdFlags
        = logNew cfg.wLog "DELETED FILE: " LstdFlags := rfl
    rw [this, ht1]
  · unfold run; simp only
    have : logNew (listOnly cfg).wLog "DELETED FILE: " LstdFlags
        = logNew cfg.wLog "DELETED FILE: " LstdFlags := rfl
    rw [this, ht1]; exact hout

/-- Witness of C7 (amended): `-ext .log -archive backup` on `testdata`, as in
`TestRunArchive`: the primary output is the one of the listing run. -/
theorem fallback_lists_after_archive_witness :
    cfgArchive.list = false ∧ cfgArchive.del = false
      ∧ (specHandlers workDir).filterOut "testdata/dir.log" cfgArchive.ext cfgArchive.size
          ⟨"dir.log", 11, false⟩ = false
      ∧ (run (specHandlers workDir) "testdata" outBuf cfgArchive testdataWalk
          (startOf [] testdataFiles)).1 = none
      ∧ (run (specHandlers workDir) "testdata" outBuf cfgArchive testdataWalk
          (startOf [] testdataFiles)).2.calls
          = [ Call.filterOut "testdata" ".log" 0 ⟨"testdata", 4096, true⟩,
              Call.filterOut "testdata/dir.log" ".log" 0 ⟨"dir.log", 11, false⟩,
              Call.archiveFile "backup" "testdata" "testdata/dir.log",
              Call.listFile "testdata/dir.log" outBuf,
              Call.filterOut "testdata/dir2" ".log" 0 ⟨"dir2", 4096, true⟩,
              Call.filterOut "testdata/dir2/script.sh" ".log" 0 ⟨"script.sh", 9, false⟩ ]
      ∧ (run (specHandlers workDir) "testdata" outBuf (listOnly cfgArchive) testdataWalk
            (startOf [] testdataFiles)).2.world.sink outBuf
          = (run (specHandlers workDir) "testdata" outBuf cfgArchive testdataWalk
              (startOf [] testdataFiles)).2.world.sink outBuf := by
  have key := fallback_lists_after_archive (specHandlers workDir) "testdata" outBuf cfgArchive
    "testdata/dir.log" ⟨"dir.log", 11, false⟩ (startOf [] testdataFiles) testdataWalk
    (startOf [] testdataFiles)
    (run (specHandlers workDir) "testdata" outBuf cfgArchive testdataWalk
      (startOf [] testdataFiles)).2
    (fun w => (w.sink outBuf, w.fault)) (by decide) (by decide) (by decide)
    (archiveFile_keeps_out workDir outBuf) (listFile_on_out outBuf) (Prod.ext (by decide) rfl)
  exact ⟨by decide, by decide, by decide, by decide, by decide,
    congrArg Prod.fst key.2.2.2⟩

/-- C5 as stated fails when the audit writer is the primary output, which is
how `main` sets things up when no log file is given (main.go, lines 42, 63 and
66): with `-ext .log -del`, `out` and `cfg.wLog` both standard output, the
successful run over five `.log` and five `.gz` files calls List on nothing
and yet leaves five lines on the primary output, the audit records. -/
theorem audit_records_on_primary_output :
    (startOf [] tempDirFiles).world.sink stdout = []
      ∧ (run (specHandlers workDir) "walktest" stdout cfgDelStdout tempDirWalk
          (startOf [] tempDirFiles)).1 = none
      ∧ (run (specHandlers workDir) "walktest" stdout cfgDelStdout tempDirWalk
          (startOf [] tempDirFiles)).2.calls.filter Call.isList = []
      ∧ (run (specHandlers workDir) "walktest" stdout cfgDelStdout tempDirWalk
          (startOf [] tempDirFiles)).2.world.sink stdout
        = [ "DELETED FILE: 2024/01/01 00:00:00 walktest/file1.log\n",
            "DELETED FILE: 2024/01/01 00:00:00 walktest/file2.log\n",
            "DELETED FILE: 2024/01/01 00:00:00 walktest/file3.log\n",
            "DELETED FILE: 2024/01/01 00:00:00 walktest/file4.log\n",
            "DELETED FILE: 2024/01/01 00:00:00 walktest/file5.log\n" ] := by
  refine ⟨by decide, by decide, by decide, by decide⟩

/-- C5, amended: a successful run in delete mode (`del` on, `list` off, no
archive destination) calls neither List nor Archive. Every writer is as
before, except the audit writer `cfg.wLog`, which has taken one record per
removed file (prefix, time stamp, path, newline), in order: so the primary
output is as before whenever it is another writer than the audit writer, and
otherwise holds these records. The entries that pass the filter name distinct
places, each held something before the run and holds nothing after it, every
other place is as before, and Delete was called on exactly these entries in
order; the records are as many as the files removed. -/
theorem delete_run_removes_passing (cwd : Key) (root : String) (out : Writer) (cfg : config)
    (tr : List Entry) (s s1 : St World)
    (hd : cfg.del = true) (hl : cfg.list = false) (ha : cfg.archive = "")
    (hrun : run (specHandlers cwd) root out cfg tr s = (none, s1)) :
    (∃ new : List Call, s1.calls = s.calls ++ new ∧
        ∀ c ∈ new, c.isList = false ∧ c.isArchive = false)
      ∧ (∀ x : Writer, s1.world.sink x
          = if x = cfg.wLog then
              s.world.sink x ++ auditRecords (delLoggerOf cfg) s.world.clock s.world.time
                (passing (specHandlers cwd) cfg tr)
            else s.world.sink x)
      ∧ (out ≠ cfg.wLog → s1.world.sink out = s.world.sink out)
      ∧ (auditRecords (delLoggerOf cfg) s.world.clock s.world.time
            (passing (specHandlers cwd) cfg tr)).length
          = (passing (specHandlers cwd) cfg tr).length
      ∧ ((passing (specHandlers cwd) cfg tr).map (fun e => key cwd e.path)).Nodup
      ∧ (∀ e ∈ passing (specHandlers cwd) cfg tr,
          getNode s.world.fs (key cwd e.path) ≠ none
            ∧ getNode s1.world.fs (key cwd e.path) = none)
      ∧ (∀ k : Key, k ∉ (passing (specHandlers cwd) cfg tr).map (fun e => key cwd e.path) →
          getNode s1.world.fs k = getNode s.world.fs k)
      ∧ s1.calls.filter Call.isDel = s.calls.filter Call.isDel
          ++ (passing (specHandlers cwd) cfg tr).map
              (fun e => Call.delFile e.path (delLoggerOf cfg)) := by
  obtain ⟨_, _, hsink, hnodup, hex, hfs, hcalls⟩ :=
    Walk_del_spec cwd root out cfg (logNew cfg.wLog "DELETED FILE: " LstdFlags) hd hl ha tr s s1
      hrun
  have hnew := Walk_new_calls (walkFn (specHandlers cwd) root out cfg
      (logNew cfg.wLog "DELETED FILE: " LstdFlags))
    (fun c => c.isList = false ∧ c.isArchive = false) tr
    (fun e _ s2 => walkFn_del_calls (specHandlers cwd) root out cfg _ e.path e.info e.err s2
      hd hl ha) s
  rw [show Walk (walkFn (specHandlers cwd) root out cfg
      (logNew cfg.wLog "DELETED FILE: " LstdFlags)) tr s = (none, s1) from hrun] at hnew
  refine ⟨hnew, hsink, ?_, auditRecords_length _ _ _ _, hnodup, ?_, ?_, hcalls⟩
  · intro hne
    have := hsink out
    rw [this]
    exact if_neg hne
  · intro e he
    refine ⟨hex e he, ?_⟩
    rw [hfs (key cwd e.path),
      if_pos (List.mem_map_of_mem (fun e => key cwd e.path) he)]
  · intro k hk
    rw [hfs k, if_neg hk]

/-- Witness of C5 (amended): the case `DeleteExtensionMixed` of
`TestRunDelExtension`, five `.log` and five `.gz` files with `-ext .log -del`
and two buffers: nothing on the primary output, five audit records, the five
`.gz` files left. -/
theorem delete_run_removes_passing_witness :
    cfgDel.del = true ∧ cfgDel.list = false ∧ cfgDel.archive = ""
      ∧ (run (specHandlers workDir) "walktest" outBuf cfgDel tempDirWalk
          (startOf [] tempDirFiles)).1 = none
      ∧ (run (specHandlers workDir) "walktest" outBuf cfgDel tempDirWalk
          (startOf [] tempDirFiles)).2.world.sink outBuf = []
      ∧ ((run (specHandlers workDir) "walktest" outBuf cfgDel tempDirWalk
          (startOf [] tempDirFiles)).2.world.sink logBuf).length = 5
      ∧ dirNames (run (specHandlers workDir) "walktest" outBuf cfgDel tempDirWalk
          (startOf [] tempDirFiles)).2.world.fs (key workDir "walktest")
        = ["file1.gz", "file2.gz", "file3.gz", "file4.gz", "file5.gz"] := by
  have key := delete_run_removes_passing workDir "walktest" outBuf cfgDel tempDirWalk
    (startOf [] tempDirFiles)
    (run (specHandlers workDir) "walktest" outBuf cfgDel tempDirWalk
      (startOf [] tempDirFiles)).2
    (by decide) (by decide) (by decide) (Prod.ext (by decide) rfl)
  refine ⟨by decide, by decide, by decide, by decide, ?_, by decide, by decide⟩
  rw [key.2.2.1 (by decide)]
  rfl


/-- C6 as stated fails at these inputs. With `list` set next to an archive
destination, the run over `testdata` succeeds, `dir.log` passes the filter,
yet no Archive call is recorded and nothing is at `backup/dir.log`. With the
traversal root as the destination, `dir.log` is archived onto itself: with
`del` set it is then deleted, so that after the successful run nothing is at
its mirrored place; without `del` the file is left there empty. -/
theorem archive_skipped_or_undone :
    ((run (specHandlers workDir) "testdata" outBuf cfgListArchive testdataWalk
          (startOf [] testdataFiles)).1 = none
        ∧ (passing (specHandlers workDir) cfgListArchive testdataWalk).map Entry.path
            = ["testdata/dir.log"]
        ∧ mirror workDir cfgListArchive.archive "testdata" "testdata/dir.log"
            = some ["work", "backup", "dir.log"]
        ∧ (run (specHandlers workDir) "testdata" outBuf cfgListArchive testdataWalk
            (startOf [] testdataFiles)).2.calls.filter Call.isArchive = []
        ∧ getNode (run (specHandlers workDir) "testdata" outBuf cfgListArchive testdataWalk
            (startOf [] testdataFiles)).2.world.fs ["work", "backup", "dir.log"] = none)
      ∧ ((run (specHandlers workDir) "testdata" outBuf cfgArchiveOntoRoot testdataWalk
            (startOf [] testdataFiles)).1 = none
        ∧ (passing (specHandlers workDir) cfgArchiveOntoRoot testdataWalk).map Entry.path
            = ["testdata/dir.log"]
        ∧ mirror workDir cfgArchiveOntoRoot.archive "testdata" "testdata/dir.log"
            = some ["work", "testdata", "dir.log"]
        ∧ (run (specHandlers workDir) "testdata" outBuf cfgArchiveOntoRoot testdataWalk
            (startOf [] testdataFiles)).2.calls.filter Call.isArchive
            = [Call.archiveFile "testdata" "testdata" "testdata/dir.log"]
        ∧ getNode (run (specHandlers workDir) "testdata" outBuf cfgArchiveOntoRoot testdataWalk
            (startOf [] testdataFiles)).2.world.fs ["work", "testdata", "dir.log"] = none)
      ∧ ((run (specHandlers workDir) "testdata" outBuf cfgCopyOntoRoot testdataWalk
            (startOf [] testdataFiles)).1 = none
        ∧ getNode (startOf [] testdataFiles).world.fs ["work", "testdata", "dir.log"]
            = some (Node.file "hello world")
        ∧ getNode (run (specHandlers workDir) "testdata" outBuf cfgCopyOntoRoot testdataWalk
            (startOf [] testdataFiles)).2.world.fs ["work", "testdata", "dir.log"]
            = some (Node.file "")) := by
  refine ⟨⟨by decide, by decide, by decide, by decide, by decide⟩,
    ⟨by decide, by decide, by decide, by decide, by decide⟩,
    ⟨by decide, by decide, by decide⟩⟩

/-- C6, amended: for a successful run with a non-empty archive destination.
With `list` set, Archive is not called. With `list` off, whatever `del` is,
Archive is called with (archive root, traversal root, path) on exactly the
entries that pass the filter, in traversal order; when no mirrored place is
the place of an entry that passes the filter, each of these entries has a
mirrored place under the destination where, after the run, a file holds the
contents the entry had before the run; and a file that is there after the run
was there before with the same contents or is at such a mirrored place, so
files that fail the filter do not appear. -/
theorem archive_run_mirrors (cwd : Key) (root : String) (out : Writer) (cfg : config)
    (tr : List Entry) (s s1 : St World) (ha : cfg.archive ≠ "")
    (hrun : run (specHandlers cwd) root out cfg tr s = (none, s1)) :
    (cfg.list = true → s1.calls.filter Call.isArchive = s.calls.filter Call.isArchive)
      ∧ (cfg.list = false →
          s1.calls.filter Call.isArchive = s.calls.filter Call.isArchive
              ++ (passing (specHandlers cwd) cfg tr).map
                  (fun e => Call.archiveFile cfg.archive root e.path)
            ∧ ((∀ p ∈ passing (specHandlers cwd) cfg tr,
                  ∀ q ∈ passing (specHandlers cwd) cfg tr,
                    mirror cwd cfg.archive root p.path ≠ some (key cwd q.path)) →
                ∀ e ∈ passing (specHandlers cwd) cfg tr, ∃ (d : Key) (data : String),
                  mirror cwd cfg.archive root e.path = some d
                    ∧ getNode s.world.fs (key cwd e.path) = some (Node.file data)
                    ∧ getNode s1.world.fs d = some (Node.file data))
            ∧ (∀ (d : Key) (x : String), getNode s1.world.fs d = some (Node.file x) →
                getNode s.world.fs d = some (Node.file x) ∨
                  ∃ e ∈ passing (specHandlers cwd) cfg tr,
                    mirror cwd cfg.archive root e.path = some d)) := by
  refine ⟨?_, ?_⟩
  · intro hl
    obtain ⟨new, hnew, hprop⟩ := Walk_new_calls (walkFn (specHandlers cwd) root out cfg
        (logNew cfg.wLog "DELETED FILE: " LstdFlags))
      (fun c => c.isArchive = false ∧ c.isDel = false) tr
      (fun e _ s2 => walkFn_list_calls (specHandlers cwd) root out cfg _ e.path e.info e.err
        s2 hl) s
    rw [show Walk (walkFn (specHandlers cwd) root out cfg
        (logNew cfg.wLog "DELETED FILE: " LstdFlags)) tr s = (none, s1) from hrun] at hnew
    simp only at hnew
    rw [hnew, List.filter_append]
    have : new.filter Call.isArchive = [] := by
      rw [List.filter_eq_nil_iff]
      intro c hc
      simp [(hprop c hc).1]
    rw [this, List.append_nil]
  · intro hl
    obtain ⟨hcalls, hnew⟩ := Walk_archive_spec cwd root out cfg
      (logNew cfg.wLog "DELETED FILE: " LstdFlags) hl ha tr s s1 hrun
    exact ⟨hcalls,
      fun h4 => Walk_archive_copies cwd root out cfg
        (logNew cfg.wLog "DELETED FILE: " LstdFlags) hl ha tr s s1 hrun h4,
      hnew⟩

/-- Witness of C6 (amended): `-ext .log -archive backup -del` on `testdata`:
`dir.log` is archived to `backup/dir.log` with its contents, `script.sh` is
not archived. -/
theorem archive_run_mirrors_witness :
    cfgArchiveDel.archive ≠ "" ∧ cfgArchiveDel.list = false
      ∧ (run (specHandlers workDir) "testdata" outBuf cfgArchiveDel testdataWalk
          (startOf [] testdataFiles)).1 = none
      ∧ (∀ p ∈ passing (specHandlers workDir) cfgArchiveDel testdataWalk,
          ∀ q ∈ passing (specHandlers workDir) cfgArchiveDel testdataWalk,
            mirror workDir cfgArchiveDel.archive "testdata" p.path
              ≠ some (key workDir q.path))
      ∧ (run (specHandlers workDir) "testdata" outBuf cfgArchiveDel testdataWalk
          (startOf [] testdataFiles)).2.calls.filter Call.isArchive
          = [Call.archiveFile "backup" "testdata" "testdata/dir.log"]
      ∧ getNode (run (specHandlers workDir) "testdata" outBuf cfgArchiveDel testdataWalk
          (startOf [] testdataFiles)).2.world.fs ["work", "backup", "dir.log"]
          = some (Node.file "hello world")
      ∧ getNode (run (specHandlers workDir) "testdata" outBuf cfgArchiveDel testdataWalk
          (startOf [] testdataFiles)).2.world.fs ["work", "backup", "dir2", "script.sh"]
          = none := by
  have main := (archive_run_mirrors workDir "testdata" outBuf cfgArchiveDel testdataWalk
    (startOf [] testdataFiles)
    (run (specHandlers workDir) "testdata" outBuf cfgArchiveDel testdataWalk
      (startOf [] testdataFiles)).2
    (by decide) (Prod.ext (by decide) rfl)).2 (by decide)
  have hdis : ∀ p ∈ passing (specHandlers workDir) cfgArchiveDel testdataWalk,
      ∀ q ∈ passing (specHandlers workDir) cfgArchiveDel testdataWalk,
        mirror workDir cfgArchiveDel.archive "testdata" p.path
          ≠ some (key workDir q.path) := by decide
  obtain ⟨d, data, hm, hsrc, hdst⟩ := main.2.1 hdis
    ⟨"testdata/dir.log", ⟨"dir.log", 11, false⟩, none⟩ (by decide)
  have hd : d = ["work", "backup", "dir.log"] := by
    have h0 : mirror workDir cfgArchiveDel.archive "testdata" "testdata/dir.log"
        = some ["work", "backup", "dir.log"] := by decide
    rw [h0] at hm
    exact (Option.some.inj hm).symm
  have hdata : data = "hello world" := by
    have h0 : getNode (startOf [] testdataFiles).world.fs (key workDir "testdata/dir.log")
        = some (Node.file "hello world") := by decide
    rw [h0] at hsrc
    exact (Node.file.inj (Option.some.inj hsrc)).symm
  refine ⟨by decide, by decide, by decide, hdis, ?_, ?_, by decide⟩
  · rw [main.1]
    decide
  · rw [← hd, hdst, hdata]


end DirWalk
